import Mathlib

/-!
# cassandra-schema-fix: a shallow embedding of `main.go`

The program reads a declared schema (a table of `keyspace | column family | id`
rows), walks the data folder (`<root>/<keyspace>/<columnfamily>-<id>/`), and for
every directory found on disk either offers to remove it (not in the schema),
offers to move its files to the directory of the identifier the schema holds
(identifier differs), or does nothing.

## How the program is modelled

* Go strings are Lean `String`s (valid UTF-8 text; every separator the program
  looks for is ASCII, so indices by character and by byte cut at the same
  places, and the byte order of `<` is the order of the characters).
* Go maps are association lists read with `get` and written with `set`.
* A computation that can stop the process returns an `Outcome` (value,
  `os.Exit` through `exitOnError`, or run-time panic); the part of `main` that
  works on the file system returns a `Run`, which keeps the state reached.
* The file system is a tree of regular files and directories below the root, a
  path is the list of its components from the root, and the library calls
  (`os.Stat`, `ioutil.ReadDir`, `os.Rename`, `os.RemoveAll`) are given the
  results they have on such a tree.  `path.Join` cuts its elements at `/` and
  cleans the result, as in Go.
* The schema file is its text together with the place of a read error, if any;
  the line scanner delivers the lines up to the read error or to the first line
  that does not fit its buffer of 64 KiB.
* Standard input is the list of the answers the successive `fmt.Scanf` calls
  read; the external `nodetool refresh` command is a parameter of the run.
* What the program prints is kept as a list of `Event`s.
-/

namespace SchemaFix

/-! ## Outcomes of a computation that may stop the process -/

/-- Result of a Go computation: a value, `os.Exit(-1)` through `exitOnError`,
or a run-time panic (index or slice bound out of range). -/
inductive Outcome (α : Type) where
  | ok (a : α)
  | exit (msg : String)
  | panic (msg : String)
  deriving Repr, DecidableEq

/-! ## The data model (main.go 14-28) -/

/-- Embedding of `type SchemaEntry struct` (main.go 14-18). -/
structure SchemaEntry where
  Keyspace : String
  ColumnFamily : String
  ColumnFamilyID : String
  deriving Repr, DecidableEq

/-- Embedding of `func (entry *SchemaEntry) FullName()` (main.go 20-22). -/
def SchemaEntry.FullName (entry : SchemaEntry) : String :=
  entry.Keyspace ++ "." ++ entry.ColumnFamily

/-- Embedding of `type Schema []*SchemaEntry` (main.go 28). -/
abbrev Schema := List SchemaEntry

/-! ## Go maps `map[string]string` -/

/-- A Go `map[string]string`, kept as an association list. -/
abbrev GoMap := List (String × String)

/-- The two-valued map read `v, ok := m[k]`. -/
def GoMap.get (m : GoMap) (k : String) : Option String :=
  match m with
  | [] => none
  | (k', v) :: rest => if k' = k then some v else GoMap.get rest k

/-- The map write `m[k] = v`. -/
def GoMap.set (m : GoMap) (k v : String) : GoMap :=
  (k, v) :: m.filter (fun p => !decide (p.1 = k))

/-- The number of keys, `len(m)`; every write goes through `set`, which keeps
one pair per key. -/
def GoMap.len (m : GoMap) : Nat := m.length

/-! ## What the program prints -/

/-- A path: the list of its components. -/
abbrev Path := List String

/-- The lines and prompts the program writes that the properties speak about. -/
inductive Event where
  /-- The duplicate report of `getSchemaMap` (main.go 111). -/
  | duplicate (name : String) (oldId : String) (entry : SchemaEntry)
  /-- One of the two listings printed by `main` (main.go 135-149). -/
  | listing (title : String) (entries : List SchemaEntry)
  /-- The prompt `REMOVE <fullpath>? [Y/n]` (main.go 159). -/
  | offerRemove (entry : SchemaEntry) (fullpath : Path)
  /-- The prompt `MOVE everything from <fromPath> to <toPath>? [Y,n]` (main.go 173-175). -/
  | offerMove (entry : SchemaEntry) (fromMap : String) (fromPath toPath : Path)
  /-- The line `REMOVING <fullpath> ...` (main.go 164). -/
  | removing (fullpath : Path)
  /-- The line `MOVING <fromPath> to <toPath>` (main.go 180). -/
  | moving (fromPath toPath : Path)
  /-- The line `Found old snapshots, REMOVING <snapshotsPath> ...` (main.go 185). -/
  | removingSnapshots (snapshotsPath : Path)
  /-- The line `!!! <newPath> already exists !!! skipping ...` (main.go 200). -/
  | conflict (newPath : Path)
  /-- The external command `nodetool refresh <keyspace> <columnfamily>` (main.go 215-217). -/
  | refresh (keyspace columnFamily : String)
  deriving Repr, DecidableEq

/-! ## The lookup index (main.go 105-118) -/

/-- The loop of `getSchemaMap` (main.go 108-115), carrying the map and the
printed duplicate reports. -/
def getSchemaMapLoop (name : String) : List SchemaEntry → GoMap × List Event → GoMap × List Event
  | [], acc => acc
  | schemaEntry :: rest, (schemaMap, out) =>
    match schemaMap.get schemaEntry.FullName with
    | some oldSchemaEntry =>
      getSchemaMapLoop name rest (schemaMap, out ++ [Event.duplicate name oldSchemaEntry schemaEntry])
    | none =>
      getSchemaMapLoop name rest (schemaMap.set schemaEntry.FullName schemaEntry.ColumnFamilyID, out)

/-- Embedding of `getSchemaMap` (main.go 105-118): the returned map. -/
def getSchemaMap (schema : Schema) (name : String) : GoMap :=
  (getSchemaMapLoop name schema ([], [])).1

/-- The duplicate reports `getSchemaMap` prints (main.go 111). -/
def getSchemaMapOutput (schema : Schema) (name : String) : List Event :=
  (getSchemaMapLoop name schema ([], [])).2

/-! ## Go string routines used by the two builders -/

/-- Go `unicode.IsSpace`: the white space `strings.TrimSpace` removes. -/
def isSpace (c : Char) : Bool :=
  c = '\t' || c = '\n' || c.toNat = 0x0B || c.toNat = 0x0C || c = '\r' || c = ' ' ||
  c.toNat = 0x85 || c.toNat = 0xA0 || c.toNat = 0x1680 ||
  (0x2000 ≤ c.toNat && c.toNat ≤ 0x200A) || c.toNat = 0x2028 || c.toNat = 0x2029 ||
  c.toNat = 0x202F || c.toNat = 0x205F || c.toNat = 0x3000

/-- Go `strings.TrimSpace`. -/
def TrimSpace (s : String) : String :=
  ⟨((s.data.dropWhile isSpace).reverse.dropWhile isSpace).reverse⟩

/-- Go `strings.Contains(s, sep)` for a one-character `sep`. -/
def Contains (s : String) (sep : Char) : Bool :=
  s.data.any (fun c => c == sep)

/-- The pieces of a character list between occurrences of `sep`. -/
def splitChars (sep : Char) : List Char → List (List Char)
  | [] => [[]]
  | c :: cs =>
    if c = sep then [] :: splitChars sep cs
    else
      match splitChars sep cs with
      | [] => [[c]]
      | f :: fs => (c :: f) :: fs

/-- Go `strings.Split(s, sep)` for a one-character `sep`. -/
def Split (s : String) (sep : Char) : List String :=
  (splitChars sep s.data).map String.mk

/-- Go `strings.Replace(s, old, "", -1)` for a one-character `old`. -/
def RemoveChar (s : String) (old : Char) : String :=
  ⟨s.data.filter (fun c => c != old)⟩

/-- Index of the last `sep` in a character list, `-1` when there is none. -/
def lastIndexChars (sep : Char) : List Char → Int
  | [] => -1
  | c :: cs =>
    let r := lastIndexChars sep cs
    if 0 ≤ r then r + 1 else if c = sep then 0 else -1

/-- Go `strings.LastIndex(s, sep)` for a one-character `sep`. -/
def LastIndex (s : String) (sep : Char) : Int :=
  lastIndexChars sep s.data

/-- The Go slice expression `s[:i]`; it panics when `i` is out of range. -/
def sliceTo (s : String) (i : Int) : Outcome String :=
  if 0 ≤ i ∧ i ≤ s.data.length then .ok ⟨s.data.take i.toNat⟩
  else .panic "slice bounds out of range"

/-- The Go slice expression `s[i:]`; it panics when `i` is out of range. -/
def sliceFrom (s : String) (i : Int) : Outcome String :=
  if 0 ≤ i ∧ i ≤ s.data.length then .ok ⟨s.data.drop i.toNat⟩
  else .panic "slice bounds out of range"

/-- Go `a < b` on the characters of two strings: lexicographic order. -/
def ltChars : List Char → List Char → Bool
  | [], [] => false
  | [], _ :: _ => true
  | _ :: _, [] => false
  | a :: as, b :: bs =>
    if a.toNat < b.toNat then true
    else if b.toNat < a.toNat then false
    else ltChars as bs

/-- Go `a < b` on strings. -/
def strLt (a b : String) : Bool := ltChars a.data b.data

/-- The Go index expression `s[0] != c`; it panics on the empty string. -/
def firstIsNot (s : String) (c : Char) : Outcome Bool :=
  match s.data with
  | [] => .panic "index out of range"
  | x :: _ => .ok (x != c)

/-! ## The declared-source builder (main.go 46-75) -/

/-- The scanner loop of `getFromSchemaFile` (main.go 54-72) over the lines the
scanner yields. -/
def getFromSchemaFileLoop : List String → Bool → Schema → Outcome Schema
  | [], _, schema => .ok schema
  | line :: rest, started, schema =>
    if !started then
      if Contains line '-' then getFromSchemaFileLoop rest true schema
      else getFromSchemaFileLoop rest false schema
    else
      let line := TrimSpace line
      if line = "" then .ok schema
      else
        let fields := Split line '|'
        match fields.get? 0, fields.get? 1, fields.get? 2 with
        | some f0, some f1, some f2 =>
          getFromSchemaFileLoop rest true (schema ++ [{
            Keyspace := TrimSpace f0
            ColumnFamily := TrimSpace f1
            ColumnFamilyID := RemoveChar (TrimSpace f2) '-' }])
        | _, _, _ => .panic "index out of range"

/-- Go `bufio.MaxScanTokenSize`: the size the buffer of a `bufio.Scanner` does
not grow beyond. -/
def maxScanTokenSize : Nat := 64 * 1024

/-- The schema file as the scanner meets it: its text, and the number of
characters the reads deliver before a read error (`none` when the text is read
to its end). -/
structure SchemaFile where
  text : String
  readError : Option Nat
  deriving Repr, DecidableEq

/-- The text the reads deliver: all of it, or what comes before the read
error.  The scanner treats a read error as the end of the input, and
`scanner.Err()` is never looked at (main.go 51-74). -/
def SchemaFile.delivered (f : SchemaFile) : String :=
  match f.readError with
  | none => f.text
  | some k => ⟨f.text.data.take k⟩

/-- The lines of a text as `bufio.ScanLines` cuts them, carriage returns still
on: the pieces between line feeds, without an empty piece after the last line
feed. -/
def rawLines (text : String) : List (List Char) :=
  if (splitChars '\n' text.data).getLast? = some [] then (splitChars '\n' text.data).dropLast
  else splitChars '\n' text.data

/-- Go `dropCR` of `bufio.ScanLines`: one trailing carriage return is dropped. -/
def dropCR (l : List Char) : List Char :=
  if l.getLast? = some '\r' then l.dropLast else l

/-- The tokens the loop `for scanner.Scan()` sees (main.go 51-55): the lines of
the delivered text up to the first one that does not fit the buffer of
`maxScanTokenSize` bytes; there `Scan` returns false and the loop ends like at
the end of the file. -/
def scanLines (text : String) : List String :=
  ((rawLines text).takeWhile
    (fun l => decide ((String.mk l).utf8ByteSize < maxScanTokenSize))).map
    (fun l => String.mk (dropCR l))

/-- Embedding of `getFromSchemaFile` (main.go 46-75).  The argument is `none`
when `os.Open` fails, otherwise the file the scanner reads. -/
def getFromSchemaFile (schemaFile : Option SchemaFile) : Outcome Schema :=
  match schemaFile with
  | none => .exit "Can't open schema file"
  | some f => getFromSchemaFileLoop (scanLines f.delivered) false []

/-- The lines of a text as the specification reads them: all of them, each
without its line end. -/
def textLines (text : String) : List String :=
  (rawLines text).map (fun l => String.mk (dropCR l))

/-- The data rows of a declared-source text as the specification words them:
the lines after the first line containing `-` and before the first blank line
(a line of white space only), without surrounding white space. -/
def dataRows (lines : List String) : List String :=
  ((((lines.dropWhile (fun l => !Contains l '-')).drop 1).map TrimSpace).takeWhile
    (fun l => !decide (l = "")))

/-- The entity of a data row as the specification words it: fields 0, 1 and 2
of the row split on `|` give group, name and identifier, the identifier
without its dashes and each without surrounding white space. -/
def rowEntry (row : String) : SchemaEntry :=
  { Keyspace := TrimSpace ((Split row '|').getD 0 "")
    ColumnFamily := TrimSpace ((Split row '|').getD 1 "")
    ColumnFamilyID := RemoveChar (TrimSpace ((Split row '|').getD 2 "")) '-' }

/-! ## The file system

A tree of regular files and directories.  A directory holds named entries; the
entry a name denotes is the first pair with that name, and every write removes
the pairs of the name it writes, so a directory is a finite map from names to
nodes.  The calls below are the ones `main.go` makes, with the results Linux
gives them on such a tree (no permission or device errors). -/

/-- Error numbers the modelled calls return. -/
inductive Errno where
  | ENOENT | ENOTDIR | EINVAL | EISDIR | ENOTEMPTY
  deriving Repr, DecidableEq

/-- A node of the file system. -/
inductive Node where
  | file (content : String)
  | dir (entries : List (String × Node))

mutual
/-- Decidable equality of nodes. -/
def Node.decEq : (a b : Node) → Decidable (a = b)
  | .file x, .file y =>
    if h : x = y then isTrue (by rw [h]) else isFalse (by intro h1; cases h1; exact h rfl)
  | .file _, .dir _ => isFalse (by intro h; cases h)
  | .dir _, .file _ => isFalse (by intro h; cases h)
  | .dir as, .dir bs =>
    match Node.decEqEntries as bs with
    | isTrue h => isTrue (by rw [h])
    | isFalse h => isFalse (by intro h1; cases h1; exact h rfl)
/-- Decidable equality of entry lists. -/
def Node.decEqEntries : (as bs : List (String × Node)) → Decidable (as = bs)
  | [], [] => isTrue rfl
  | [], _ :: _ => isFalse (by intro h; cases h)
  | _ :: _, [] => isFalse (by intro h; cases h)
  | (k, a) :: as, (k1, b) :: bs =>
    if hk : k = k1 then
      match Node.decEq a b with
      | isTrue h =>
        match Node.decEqEntries as bs with
        | isTrue h2 => isTrue (by rw [hk, h, h2])
        | isFalse h2 => isFalse (by intro h1; cases h1; exact h2 rfl)
      | isFalse h => isFalse (by intro h1; cases h1; exact h rfl)
    else isFalse (by intro h1; cases h1; exact hk rfl)
end

instance : DecidableEq Node := Node.decEq

/-- Decidable equality of the results of the file-system calls. -/
def decEqExcept {ε α : Type} [DecidableEq ε] [DecidableEq α] :
    (a b : Except ε α) → Decidable (a = b)
  | .ok x, .ok y =>
    if h : x = y then isTrue (by rw [h]) else isFalse (by intro h1; cases h1; exact h rfl)
  | .error x, .error y =>
    if h : x = y then isTrue (by rw [h]) else isFalse (by intro h1; cases h1; exact h rfl)
  | .ok _, .error _ => isFalse (by intro h; cases h)
  | .error _, .ok _ => isFalse (by intro h; cases h)

instance {ε α : Type} [DecidableEq ε] [DecidableEq α] : DecidableEq (Except ε α) := decEqExcept

/-- The entry a name denotes in a directory. -/
def lookupEntry (es : List (String × Node)) (c : String) : Option Node :=
  match es with
  | [] => none
  | (k, v) :: rest => if k = c then some v else lookupEntry rest c

/-- The directory without the entry `c`. -/
def eraseEntry (es : List (String × Node)) (c : String) : List (String × Node) :=
  es.filter (fun p => !decide (p.1 = c))

/-- The directory with the entry `c` set to `n`. -/
def putEntry (es : List (String × Node)) (c : String) (n : Node) : List (String × Node) :=
  (c, n) :: eraseEntry es c

/-- Path resolution: the node a path denotes below `n`. -/
def Node.stat : Node → Path → Except Errno Node
  | n, [] => .ok n
  | .file _, _ :: _ => .error .ENOTDIR
  | .dir es, c :: cs =>
    match lookupEntry es c with
    | none => .error .ENOENT
    | some n => Node.stat n cs

/-- Replace the node at path `p` by the result of `f` on it. -/
def Node.modifyAt (f : Node → Except Errno Node) : Node → Path → Except Errno Node
  | n, [] => f n
  | .file _, _ :: _ => .error .ENOTDIR
  | .dir es, c :: cs =>
    match lookupEntry es c with
    | none => .error .ENOENT
    | some n =>
      match Node.modifyAt f n cs with
      | .ok n' => .ok (.dir (putEntry es c n'))
      | .error e => .error e

/-- Unlink the entry `c` of a directory node. -/
def unlinkChild (c : String) : Node → Except Errno Node
  | .file _ => .error .ENOTDIR
  | .dir es => .ok (.dir (eraseEntry es c))

/-- Link `x` as the entry `c` of a directory node. -/
def linkChild (c : String) (x : Node) : Node → Except Errno Node
  | .file _ => .error .ENOTDIR
  | .dir es => .ok (.dir (putEntry es c x))

/-- The parent path and the last component of a non-empty path. -/
def splitLast : Path → Option (Path × String)
  | [] => none
  | [c] => some ([], c)
  | c :: c' :: cs =>
    match splitLast (c' :: cs) with
    | some (parent, base) => some (c :: parent, base)
    | none => none

/-- Go `os.RemoveAll(path)`: removes the node and everything below it; a path
that does not exist is not an error. -/
def RemoveAll (fs : Node) (path : Path) : Except Errno Node :=
  match splitLast path with
  | none => .ok fs
  | some (parent, base) =>
    match Node.stat fs path with
    | .error .ENOENT => .ok fs
    | .error e => .error e
    | .ok _ => Node.modifyAt (unlinkChild base) fs parent

/-- Go `os.Rename(oldpath, newpath)` (rename(2)): fails when `oldpath` does not
exist or the parent of `newpath` is not an existing directory; replaces an
existing file by a file and an existing empty directory by a directory. -/
def Rename (fs : Node) (oldpath newpath : Path) : Except Errno Node :=
  match splitLast oldpath, splitLast newpath with
  | some (oldParent, oldBase), some (newParent, newBase) =>
    match Node.stat fs oldpath with
    | .error e => .error e
    | .ok x =>
      if oldpath = newpath then .ok fs
      else if oldpath <+: newpath then .error .EINVAL
      else
        let replace : Except Errno Unit :=
          match Node.stat fs newpath, x with
          | .ok (.file _), .file _ => .ok ()
          | .ok (.file _), .dir _ => .error .ENOTDIR
          | .ok (.dir _), .file _ => .error .EISDIR
          | .ok (.dir []), .dir _ => .ok ()
          | .ok (.dir (_ :: _)), .dir _ => .error .ENOTEMPTY
          | .error .ENOENT, _ => .ok ()
          | .error e, _ => .error e
        match replace with
        | .error e => .error e
        | .ok () =>
          match Node.modifyAt (unlinkChild oldBase) fs oldParent with
          | .error e => .error e
          | .ok fs1 => Node.modifyAt (linkChild newBase x) fs1 newParent
  | _, _ => .error .EINVAL

/-- Embedding of `os.FileInfo` as far as the program reads it. -/
structure FileInfo where
  Name : String
  IsDir : Bool
  deriving Repr, DecidableEq

/-- Whether a node is a directory. -/
def Node.isDir : Node → Bool
  | .file _ => false
  | .dir _ => true

/-- The names of a directory in the order `ioutil.ReadDir` returns them: each
name once, sorted. -/
def entryNames (es : List (String × Node)) : List String :=
  List.insertionSort (fun a b => strLt b a = false) (es.map Prod.fst).dedup

/-- Go `ioutil.ReadDir(dirname)`: the entries of a directory, sorted by name. -/
def ReadDir (fs : Node) (dirname : Path) : Except Errno (List FileInfo) :=
  match Node.stat fs dirname with
  | .error e => .error e
  | .ok (.file _) => .error .ENOTDIR
  | .ok (.dir es) =>
    .ok ((entryNames es).map fun n =>
      { Name := n
        IsDir := match lookupEntry es n with
          | some x => x.isDir
          | none => false })

/-- Embedding of `FilepathExists` (main.go 227-236): `(true, nil)` when
`os.Stat` succeeds, `(false, nil)` when the error is "does not exist",
`(true, err)` otherwise. -/
def FilepathExists (fs : Node) (path : Path) : Bool × Option Errno :=
  match Node.stat fs path with
  | .ok _ => (true, none)
  | .error .ENOENT => (false, none)
  | .error e => (true, some e)

/-! ## The observed-source builder (main.go 77-103) -/

/-- The inner loop of `getFromDataFolder` (main.go 88-98) over the entries of
one keyspace directory. -/
def columnFamilyLoop (keyspace : String) : List FileInfo → Schema → Outcome Schema
  | [], schema => .ok schema
  | columnFamilyDir :: rest, schema =>
    let columnFamily := columnFamilyDir.Name
    if columnFamilyDir.IsDir then
      match firstIsNot columnFamily '.' with
      | .ok true =>
        let i := LastIndex columnFamily '-'
        match sliceTo columnFamily i, sliceFrom columnFamily (i + 1) with
        | .ok name, .ok id =>
          columnFamilyLoop keyspace rest (schema ++ [{
            Keyspace := keyspace
            ColumnFamily := name
            ColumnFamilyID := id }])
        | .ok _, .exit m => .exit m
        | .ok _, .panic m => .panic m
        | .exit m, _ => .exit m
        | .panic m, _ => .panic m
      | .ok false => columnFamilyLoop keyspace rest schema
      | .exit m => .exit m
      | .panic m => .panic m
    else columnFamilyLoop keyspace rest schema

/-- The outer loop of `getFromDataFolder` (main.go 82-100) over the entries of
the data folder. -/
def keyspaceLoop (fs : Node) (dataFolder : Path) : List FileInfo → Schema → Outcome Schema
  | [], schema => .ok schema
  | keyspaceDir :: rest, schema =>
    let keyspace := keyspaceDir.Name
    if keyspaceDir.IsDir then
      match firstIsNot keyspace '.' with
      | .ok true =>
        match ReadDir fs (dataFolder ++ [keyspace]) with
        | .error _ => .exit "Can't list directory"
        | .ok columnFamilyDirs =>
          match columnFamilyLoop keyspace columnFamilyDirs schema with
          | .ok schema' => keyspaceLoop fs dataFolder rest schema'
          | .exit m => .exit m
          | .panic m => .panic m
      | .ok false => keyspaceLoop fs dataFolder rest schema
      | .exit m => .exit m
      | .panic m => .panic m
    else keyspaceLoop fs dataFolder rest schema

/-- Embedding of `getFromDataFolder` (main.go 77-103). -/
def getFromDataFolder (fs : Node) (dataFolder : Path) : Outcome Schema :=
  match ReadDir fs dataFolder with
  | .error _ => .exit "Can't list directory"
  | .ok keyspaceDirs => keyspaceLoop fs dataFolder keyspaceDirs []

/-! ## Sorting (main.go 30-44, 132-133) -/

/-- Embedding of `Schema.Less` (main.go 32-44) on the two entries compared. -/
def Schema.Less (this that : SchemaEntry) : Bool :=
  if this.Keyspace = that.Keyspace then
    if this.ColumnFamily = that.ColumnFamily then
      strLt this.ColumnFamilyID that.ColumnFamilyID
    else
      strLt this.ColumnFamily that.ColumnFamily
  else
    strLt this.Keyspace that.Keyspace

/-- Go `sort.Sort(schema)`: the entries rearranged so that no entry is `Less`
than one before it.  `Less` orders the triples totally, so every sorting
algorithm returns this same sequence (`sortSchema_unique`). -/
def sortSchema (schema : Schema) : Schema :=
  List.insertionSort (fun a b => Schema.Less b a = false) schema

/-! ## The reconciliation run (main.go 120-225) -/

/-- What the run is started with, besides its inputs: the data folder (by its
components from the root) and the force flag from the command line, and the
external `nodetool refresh` command,
which gets the keyspace and the column family, may change the file system, and
is `none` when the command fails. -/
structure Env where
  dataFolder : Path
  force : Bool
  nodetoolRefresh : String → String → Node → Option Node

/-- The state a run works on: the file system, the answers still to be read
from standard input (one per `fmt.Scanf` call, in order), and what has been
printed. -/
structure World where
  fs : Node
  stdin : List String
  out : List Event
  deriving DecidableEq

/-- How a piece of `main` ends: it goes on with a new state, or `exitOnError`
stops the process in the state reached. -/
inductive Run where
  | done (w : World)
  | exit (w : World) (msg : String)
  deriving DecidableEq

/-- Sequencing: go on with `f` unless the process has stopped. -/
def Run.andThen (r : Run) (f : World → Run) : Run :=
  match r with
  | .done w => f w
  | .exit w msg => .exit w msg

/-- The state a run ends in. -/
def Run.world : Run → World
  | .done w => w
  | .exit w _ => w

/-- Go `fmt.Scanf("%s", &answer)`: the next answer; `answer` stays empty when
nothing can be read. -/
def Scanf (stdin : List String) : String × List String :=
  match stdin with
  | [] => ("", [])
  | a :: rest => (a, rest)

/-- Go `path.Clean` on the components of a path from the root: empty
components and `.` are dropped, and `..` drops the component before it (at the
root there is none to drop).  `acc` holds the components kept so far. -/
def cleanPath : List String → Path → Path
  | [], acc => acc
  | c :: cs, acc =>
    if c = "" ∨ c = "." then cleanPath cs acc
    else if c = ".." then cleanPath cs acc.dropLast
    else cleanPath cs (acc ++ [c])

/-- Go `path.Join(dir, elems...)`: the elements are joined with `/` and the
result is cleaned.  `dir` is given by its components from the root; every
element is cut at its `/`, so an element such as `cf1-id1/x` or `id/../.zz`
contributes several components, or moves up. -/
def pathJoin (dir : Path) (elems : List String) : Path :=
  cleanPath (dir ++ elems.flatMap (fun e => Split e '/')) []

/-- Print one event. -/
def World.print (w : World) (e : Event) : World := { w with out := w.out ++ [e] }

/-- The loop over the files of the old directory (main.go 193-206). -/
def moveFilesLoop (fromPath toPath : Path) : List FileInfo → World → Run
  | [], w => .done w
  | oldFile :: rest, w =>
    let oldPath := pathJoin fromPath [oldFile.Name]
    let newPath := pathJoin toPath [oldFile.Name]
    match (FilepathExists w.fs newPath).2 with
    | some _ => .exit w "Can't check new path"
    | none =>
      if (FilepathExists w.fs newPath).1 then
        moveFilesLoop fromPath toPath rest (w.print (.conflict newPath))
      else
        match Rename w.fs oldPath newPath with
        | .error _ => .exit w "Can't move file"
        | .ok fs' => moveFilesLoop fromPath toPath rest { w with fs := fs' }

/-- Removal of old snapshots (main.go 181-189). -/
def removeSnapshots (fromPath : Path) (w : World) : Run :=
  let snapshotsPath := pathJoin fromPath ["snapshots"]
  match (FilepathExists w.fs snapshotsPath).2 with
  | some _ => .exit w "Can't check snapshots path"
  | none =>
    if (FilepathExists w.fs snapshotsPath).1 then
      let w := w.print (.removingSnapshots snapshotsPath)
      match RemoveAll w.fs snapshotsPath with
      | .error _ => .exit w "Can't remove"
      | .ok fs' => .done { w with fs := fs' }
    else .done w

/-- Listing the old directory and moving its files (main.go 190-206). -/
def moveFiles (fromPath toPath : Path) (w : World) : Run :=
  match ReadDir w.fs fromPath with
  | .error _ => .exit w "Can't list directory"
  | .ok oldFiles => moveFilesLoop fromPath toPath oldFiles w

/-- Removal of the old directory when nothing is left in it (main.go 208-213). -/
def removeIfEmpty (fromPath : Path) (w : World) : Run :=
  match ReadDir w.fs fromPath with
  | .error _ => .exit w "Can't list directory"
  | .ok oldFiles =>
    if oldFiles.length = 0 then
      match RemoveAll w.fs fromPath with
      | .error _ => .exit w "Can't remove"
      | .ok fs' => .done { w with fs := fs' }
    else .done w

/-- The call of `nodetool refresh` (main.go 215-218). -/
def runRefresh (env : Env) (schemaEntry : SchemaEntry) (w : World) : Run :=
  let w := w.print (.refresh schemaEntry.Keyspace schemaEntry.ColumnFamily)
  match env.nodetoolRefresh schemaEntry.Keyspace schemaEntry.ColumnFamily w.fs with
  | none => .exit w "nodetool refresh failed"
  | some fs' => .done { w with fs := fs' }

/-- The confirmed move (main.go 180-221). -/
def migrate (env : Env) (schemaEntry : SchemaEntry) (fromPath toPath : Path) (w : World) : Run :=
  (((removeSnapshots fromPath (w.print (.moving fromPath toPath))).andThen
    (moveFiles fromPath toPath)).andThen
    (removeIfEmpty fromPath)).andThen
    (runRefresh env schemaEntry)

/-- The confirmed removal (main.go 164-167). -/
def removeDirectory (fullpath : Path) (w : World) : Run :=
  let w := w.print (.removing fullpath)
  match RemoveAll w.fs fullpath with
  | .error _ => .exit w "Can't remove"
  | .ok fs' => .done { w with fs := fs' }

/-- The answer to a prompt (main.go 158-163 and 174-179): read only when the
run is not forced. -/
def readAnswer (force : Bool) (w : World) : String × World :=
  if force then ("", w)
  else ((Scanf w.stdin).1, { w with stdin := (Scanf w.stdin).2 })

/-- The path `main` rebuilds for the directory of an entry (main.go 157, 171):
`path.Join(dataFolder, Keyspace, ColumnFamily+"-"+ColumnFamilyID)`. -/
def entryPath (env : Env) (schemaEntry : SchemaEntry) : Path :=
  pathJoin env.dataFolder
    [schemaEntry.Keyspace, schemaEntry.ColumnFamily ++ "-" ++ schemaEntry.ColumnFamilyID]

/-- The path of the directory files are moved to (main.go 172):
`path.Join(dataFolder, Keyspace, ColumnFamily+"-"+fromMap)`. -/
def targetPath (env : Env) (schemaEntry : SchemaEntry) (fromMap : String) : Path :=
  pathJoin env.dataFolder [schemaEntry.Keyspace, schemaEntry.ColumnFamily ++ "-" ++ fromMap]

/-- The body of the loop of `main` over the entries found in the data folder
(main.go 155-223). -/
def reconcileEntry (env : Env) (schemaMap : GoMap) (schemaEntry : SchemaEntry) (w : World) : Run :=
  match schemaMap.get schemaEntry.FullName with
  | none =>
    let fullpath := entryPath env schemaEntry
    let w := w.print (.offerRemove schemaEntry fullpath)
    let (answer, w) := readAnswer env.force w
    if env.force || answer = "Y" then removeDirectory fullpath w
    else .done w
  | some fromMap =>
    if fromMap ≠ schemaEntry.ColumnFamilyID then
      let fromPath := entryPath env schemaEntry
      let toPath := targetPath env schemaEntry fromMap
      let w := w.print (.offerMove schemaEntry fromMap fromPath toPath)
      let (answer, w) := readAnswer env.force w
      if env.force || answer = "Y" then migrate env schemaEntry fromPath toPath w
      else .done w
    else .done w

/-- The loop of `main` over the entries found in the data folder
(main.go 154-224). -/
def reconcileLoop (env : Env) (schemaMap : GoMap) : List SchemaEntry → World → Run
  | [], w => .done w
  | schemaEntry :: rest, w =>
    match reconcileEntry env schemaMap schemaEntry w with
    | .done w' => reconcileLoop env schemaMap rest w'
    | .exit w' msg => .exit w' msg

/-- The lookup index `main` builds (main.go 132 and 153): `getSchemaMap` on the
declared schema after `sort.Sort`. -/
def declaredIndex (schemaFromSchemaFile : Schema) : GoMap :=
  getSchemaMap (sortSchema schemaFromSchemaFile) "Schema File"

/-- The part of `main` after the two builders (main.go 132-224): sort both
schemas, print them, build the index from the declared one, and go through the
observed one. -/
def reconcileRun (env : Env) (schemaFromSchemaFile schemaFromDataFolder : Schema)
    (w : World) : Run :=
  let schemaFromSchemaFile := sortSchema schemaFromSchemaFile
  let schemaFromDataFolder := sortSchema schemaFromDataFolder
  let w := w.print (.listing "From Schema File:" schemaFromSchemaFile)
  let w := w.print (.listing "From Data Folder:" schemaFromDataFolder)
  let w := { w with out := w.out ++ getSchemaMapOutput schemaFromSchemaFile "Schema File" }
  reconcileLoop env (getSchemaMap schemaFromSchemaFile "Schema File") schemaFromDataFolder w

/-- Embedding of `main` (main.go 120-225); `schemaFile` is `none` when the
schema file cannot be opened. -/
def main (env : Env) (schemaFile : Option SchemaFile) (w : World) : Outcome Run :=
  match getFromSchemaFile schemaFile with
  | .exit m => .exit m
  | .panic m => .panic m
  | .ok schemaFromSchemaFile =>
    match getFromDataFolder w.fs env.dataFolder with
    | .exit m => .exit m
    | .panic m => .panic m
    | .ok schemaFromDataFolder =>
      .ok (reconcileRun env schemaFromSchemaFile schemaFromDataFolder w)

/-- The actions a run has offered: its prompts, in order. -/
def offers (out : List Event) : List Event :=
  out.filter fun e =>
    match e with
    | .offerRemove _ _ => true
    | .offerMove _ _ _ _ => true
    | _ => false

/-- A piece of the run that reads no answer and prints no prompt. -/
def Silent (f : World → Run) : Prop :=
  ∀ w, (f w).world.stdin = w.stdin ∧ offers (f w).world.out = offers w.out

/-- The calls of the refresh command a run has made, in order. -/
def refreshCalls (out : List Event) : List (String × String) :=
  out.filterMap fun e =>
    match e with
    | .refresh ks cf => some (ks, cf)
    | _ => none

/-! ## The words of the specification, for comparison with the code -/

/-- A component a cleaned path can have: not empty, not `.`, not `..`. -/
@[reducible] def CleanName (c : String) : Prop := c ≠ "" ∧ c ≠ "." ∧ c ≠ ".."

/-- A file name, as the entries of a directory have: a component of a cleaned
path without `/`. -/
@[reducible] def PlainName (n : String) : Prop := CleanName n ∧ '/' ∉ n.data

/-- Two directories that are different and neither of which lies inside the
other: neither path begins with the other. -/
@[reducible] def Apart (p q : Path) : Prop := ¬ p <+: q ∧ ¬ q <+: p

/-- The entries the observed builder takes: directories whose name does not
begin with `.` (main.go 84, 90). -/
def visible (fi : FileInfo) : Bool :=
  fi.IsDir && (match fi.Name.data with
    | [] => false
    | c :: _ => c != '.')

/-- The entity the observed builder makes of a leaf directory name that
contains `-` (main.go 91-96): the name before the last `-`, the identifier
after it. -/
def leafEntity (keyspace columnFamily : String) : SchemaEntry :=
  { Keyspace := keyspace
    ColumnFamily := ⟨columnFamily.data.take (LastIndex columnFamily '-').toNat⟩
    ColumnFamilyID := ⟨columnFamily.data.drop (LastIndex columnFamily '-' + 1).toNat⟩ }

/-- The entries of a directory that can be listed, none otherwise. -/
def listDir (fs : Node) (dirname : Path) : List FileInfo :=
  match ReadDir fs dirname with
  | .ok l => l
  | .error _ => []

/-- The output of the observed builder as the specification words it: one
entity per leaf directory, that is, per directory not beginning with `.` inside
each group directory not beginning with `.`. -/
def entitiesOfLeaves (fs : Node) (dataFolder : Path) : List SchemaEntry :=
  ((listDir fs dataFolder).filter visible).flatMap fun k =>
    ((listDir fs (dataFolder ++ [k.Name])).filter visible).map fun c =>
      leafEntity k.Name c.Name

/-- What the loop over the files of the old directory does to the entries `S`
of the old directory and `D` of the new one, name by name: a name that is free
in `D` is moved, a name that is taken stays. -/
def moveEntries : List String → List (String × Node) × List (String × Node) →
    List (String × Node) × List (String × Node)
  | [], sd => sd
  | n :: rest, (S, D) =>
    match lookupEntry D n, lookupEntry S n with
    | none, some x => moveEntries rest (eraseEntry S n, putEntry D n x)
    | _, _ => moveEntries rest (S, D)

/-! ## Sample inputs -/

/-- A refresh command that succeeds and leaves the files alone. -/
def refreshOk : String → String → Node → Option Node := fun _ _ fs => some fs

/-- The scenario of a stale directory `ks1/cf1-id1` holding `sstable1`, with
the directory `ks1/cf1-id2` present and empty. -/
def staleFs : Node :=
  .dir [("ks1", .dir [("cf1-id1", .dir [("sstable1", .file "x"), ("snapshots", .dir [("s", .file "y")])]),
                      ("cf1-id2", .dir [])])]

/-- The same scenario without the directory `ks1/cf1-id2`. -/
def staleFsNoDest : Node :=
  .dir [("ks1", .dir [("cf1-id1", .dir [("sstable1", .file "x")])])]

/-- The same scenario with `sstable1` already in `ks1/cf1-id2`. -/
def staleFsConflict : Node :=
  .dir [("ks1", .dir [("cf1-id1", .dir [("sstable1", .file "x"), ("other", .file "o")]),
                      ("cf1-id2", .dir [("sstable1", .file "z")])])]

/-- A refresh command that fails. -/
def refreshFails : String → String → Node → Option Node := fun _ _ _ => none

/-- A refresh command that succeeds and empties the file system. -/
def refreshWipes : String → String → Node → Option Node := fun _ _ _ => some (.dir [])

/-- The scenario of a directory `ks1/cf1-id1` holding the file `a` and the
directory `x`, which holds a file `a` too. -/
def staleFsNested : Node :=
  .dir [("ks1", .dir [("cf1-id1", .dir [("a", .file "1"), ("x", .dir [("a", .file "2")])])])]

/-- The scenario of a directory `ks1/cf1-id1` holding only the empty directory
`x`. -/
def staleFsNestedEmpty : Node :=
  .dir [("ks1", .dir [("cf1-id1", .dir [("x", .dir [])])])]

/-- The scenario of a stale directory `ks1/cf1-id1` holding only old snapshots,
without the directory `ks1/cf1-id2`. -/
def staleFsOnlySnapshots : Node :=
  .dir [("ks1", .dir [("cf1-id1", .dir [("snapshots", .dir [("s", .file "y")])])])]

/-- The scenario of old snapshots in both directories: `ks1/cf1-id1/snapshots`
and `ks1/cf1-id2/snapshots`. -/
def staleFsSnapshots : Node :=
  .dir [("ks1", .dir [("cf1-id1", .dir [("snapshots", .dir [("s", .file "old")])]),
                      ("cf1-id2", .dir [("snapshots", .dir [("t", .file "new")])])])]

/-- A data folder with a hidden group, a plain file, a hidden leaf and two leaf
directories. -/
def sampleFs : Node :=
  .dir [("data", .dir [
    ("ks1", .dir [("my.table-abc123", .dir [("sstable1", .file "x")]),
                  (".hidden-1", .dir []),
                  ("notes.txt", .file "n"),
                  ("cf1-id1", .dir [])]),
    (".git", .dir [("x-1", .dir [])]),
    ("README", .file "r")])]

/-! ## The lookup index: first entry wins (C1) -/

theorem GoMap.get_set (m : GoMap) (k v k' : String) :
    (m.set k v).get k' = if k = k' then some v else m.get k' := by
  unfold GoMap.set
  by_cases h : k = k'
  · simp [GoMap.get, h]
  · simp only [GoMap.get, h, if_false]
    induction m with
    | nil => simp [GoMap.get]
    | cons p rest ih =>
      obtain ⟨a, b⟩ := p
      by_cases ha : a = k
      · subst ha
        simp [List.filter_cons, GoMap.get, h, ih]
      · by_cases hb : a = k'
        · subst hb
          simp [List.filter_cons, GoMap.get, ha]
        · simp [List.filter_cons, GoMap.get, ha, hb, ih]

theorem GoMap.filter_of_get_none (m : GoMap) (k : String) (h : m.get k = none) :
    m.filter (fun p => !decide (p.1 = k)) = m := by
  induction m with
  | nil => rfl
  | cons p rest ih =>
    obtain ⟨a, b⟩ := p
    by_cases ha : a = k
    · simp [GoMap.get, ha] at h
    · simp only [GoMap.get, ha, if_false] at h
      simp only [List.filter_cons, ha, decide_False, Bool.not_false, if_true, ih h]

theorem getSchemaMapLoop_get (name : String) (l : List SchemaEntry) (m : GoMap)
    (out : List Event) (k : String) :
    (getSchemaMapLoop name l (m, out)).1.get k =
      match m.get k with
      | some v => some v
      | none => (l.find? (fun e => decide (e.FullName = k))).map SchemaEntry.ColumnFamilyID := by
  induction l generalizing m out with
  | nil => cases h : m.get k <;> simp [getSchemaMapLoop, h]
  | cons e rest ih =>
    unfold getSchemaMapLoop
    cases he : m.get e.FullName with
    | some old =>
      simp only [ih]
      cases hk : m.get k with
      | some v => rfl
      | none =>
        have hne : e.FullName ≠ k := by
          intro h
          rw [h] at he
          rw [he] at hk
          cases hk
        simp [List.find?, hne]
    | none =>
      simp only [ih, GoMap.get_set]
      by_cases h : e.FullName = k
      · subst h
        simp [he, List.find?]
      · simp [h, List.find?]

theorem getSchemaMapLoop_len (name : String) (l : List SchemaEntry) (m : GoMap)
    (out : List Event) (hnd : (l.map SchemaEntry.FullName).Nodup)
    (hfresh : ∀ e ∈ l, m.get e.FullName = none) :
    (getSchemaMapLoop name l (m, out)).1.length = m.length + l.length := by
  induction l generalizing m out with
  | nil => simp [getSchemaMapLoop]
  | cons e rest ih =>
    unfold getSchemaMapLoop
    have he : m.get e.FullName = none := hfresh e (List.mem_cons_self _ _)
    simp only [he]
    rw [List.map_cons, List.nodup_cons] at hnd
    rw [ih _ _ hnd.2]
    · simp only [GoMap.set, GoMap.filter_of_get_none m _ he, List.length_cons]
      omega
    · intro e' he'
      rw [GoMap.get_set]
      have hne : e.FullName ≠ e'.FullName := by
        intro h
        exact hnd.1 (h ▸ List.mem_map_of_mem _ he')
      simp [hne, hfresh e' (List.mem_cons_of_mem _ he')]

theorem getSchemaMap_get (schema : Schema) (name k : String) :
    (getSchemaMap schema name).get k =
      (schema.find? (fun e => decide (e.FullName = k))).map SchemaEntry.ColumnFamilyID := by
  unfold getSchemaMap
  rw [getSchemaMapLoop_get]
  simp [GoMap.get]

/-- C1: `getSchemaMap` is total; the map it returns has a key for exactly the
logical names that occur in the sequence, the value of a name is the
`ColumnFamilyID` of the first entry with that name, entries appended later never
change the value of a name already present, and when the logical names are
pairwise distinct the map has one entry per declared entity. -/
theorem getSchemaMap_first_entry_wins (schema : Schema) (name : String) :
    (∀ k, ((getSchemaMap schema name).get k).isSome ↔ ∃ e ∈ schema, e.FullName = k) ∧
    (∀ k, (getSchemaMap schema name).get k =
      (schema.find? (fun e => decide (e.FullName = k))).map SchemaEntry.ColumnFamilyID) ∧
    (∀ (later : Schema) (k : String), ((getSchemaMap schema name).get k).isSome →
      (getSchemaMap (schema ++ later) name).get k = (getSchemaMap schema name).get k) ∧
    ((schema.map SchemaEntry.FullName).Nodup →
      (getSchemaMap schema name).len = schema.length) := by
  refine ⟨?_, getSchemaMap_get schema name, ?_, ?_⟩
  · intro k
    rw [getSchemaMap_get]
    simp [List.find?_isSome]
  · intro later k hk
    rw [getSchemaMap_get] at hk ⊢
    rw [getSchemaMap_get, List.find?_append]
    cases h : schema.find? (fun e => decide (e.FullName = k)) with
    | none => simp [h] at hk
    | some e => simp
  · intro hnd
    unfold getSchemaMap GoMap.len
    rw [getSchemaMapLoop_len name schema [] [] hnd (fun _ _ => rfl)]
    simp

/-- C1 at a schema with a repeated logical name and at one without. -/
theorem getSchemaMap_first_entry_wins_witness :
    (getSchemaMap [⟨"ks1", "cf1", "id2"⟩, ⟨"ks1", "cf1", "id1"⟩, ⟨"ks1", "cf2", "id3"⟩] "Schema File").get
      "ks1.cf1" = some "id2" ∧
    (getSchemaMap [⟨"ks1", "cf1", "id2"⟩, ⟨"ks1", "cf2", "id3"⟩] "Schema File").len = 2 :=
  ⟨by decide,
   (getSchemaMap_first_entry_wins [⟨"ks1", "cf1", "id2"⟩, ⟨"ks1", "cf2", "id3"⟩] "Schema File").2.2.2
     (by decide)⟩

/-! ## Pieces of the run that read no answer and offer nothing -/

theorem offers_append (a b : List Event) : offers (a ++ b) = offers a ++ offers b := by
  simp [offers]

theorem Silent.andThen {f : World → Run} (hf : Silent f) (r : Run) :
    (r.andThen f).world.stdin = r.world.stdin ∧
    offers (r.andThen f).world.out = offers r.world.out := by
  cases r with
  | done w => exact hf w
  | exit w msg => exact ⟨rfl, rfl⟩

theorem removeSnapshots_silent (fromPath : Path) : Silent (removeSnapshots fromPath) := by
  intro w
  unfold removeSnapshots
  dsimp only
  repeat' split
  all_goals simp [Run.world, World.print, offers_append, offers]

theorem moveFilesLoop_silent (fromPath toPath : Path) (files : List FileInfo) :
    Silent (moveFilesLoop fromPath toPath files) := by
  induction files with
  | nil => intro w; exact ⟨rfl, rfl⟩
  | cons oldFile rest ih =>
    intro w
    unfold moveFilesLoop
    dsimp only
    split
    · exact ⟨rfl, rfl⟩
    · split
      · have := ih (w.print (.conflict (pathJoin toPath [oldFile.Name])))
        simpa [World.print, offers_append, offers] using this
      · split
        · exact ⟨rfl, rfl⟩
        · rename_i fs' _
          exact ih { w with fs := fs' }

theorem moveFiles_silent (fromPath toPath : Path) : Silent (moveFiles fromPath toPath) := by
  intro w
  unfold moveFiles
  split
  · exact ⟨rfl, rfl⟩
  · exact moveFilesLoop_silent fromPath toPath _ w

theorem removeIfEmpty_silent (fromPath : Path) : Silent (removeIfEmpty fromPath) := by
  intro w
  unfold removeIfEmpty
  repeat' split
  all_goals simp [Run.world]

theorem runRefresh_silent (env : Env) (schemaEntry : SchemaEntry) :
    Silent (runRefresh env schemaEntry) := by
  intro w
  unfold runRefresh
  dsimp only
  split
  all_goals simp [Run.world, World.print, offers_append, offers]

theorem removeDirectory_silent (fullpath : Path) : Silent (removeDirectory fullpath) := by
  intro w
  unfold removeDirectory
  dsimp only
  split
  all_goals simp [Run.world, World.print, offers_append, offers]

theorem migrate_silent (env : Env) (schemaEntry : SchemaEntry) (fromPath toPath : Path) :
    Silent (migrate env schemaEntry fromPath toPath) := by
  intro w
  unfold migrate
  have h1 := removeSnapshots_silent fromPath (w.print (.moving fromPath toPath))
  have h2 := (moveFiles_silent fromPath toPath).andThen
    (removeSnapshots fromPath (w.print (.moving fromPath toPath)))
  have h3 := (removeIfEmpty_silent fromPath).andThen
    ((removeSnapshots fromPath (w.print (.moving fromPath toPath))).andThen
      (moveFiles fromPath toPath))
  have h4 := (runRefresh_silent env schemaEntry).andThen
    (((removeSnapshots fromPath (w.print (.moving fromPath toPath))).andThen
      (moveFiles fromPath toPath)).andThen (removeIfEmpty fromPath))
  constructor
  · rw [h4.1, h3.1, h2.1, h1.1]; rfl
  · rw [h4.2, h3.2, h2.2, h1.2]
    simp [World.print, offers_append, offers]

/-- The prompt the loop body prints for an entry, by the branch taken. -/
theorem reconcileEntry_offers (env : Env) (schemaMap : GoMap) (e : SchemaEntry) (w : World) :
    offers (reconcileEntry env schemaMap e w).world.out =
      offers w.out ++
        match schemaMap.get e.FullName with
        | none => [Event.offerRemove e (entryPath env e)]
        | some fromMap =>
          if fromMap ≠ e.ColumnFamilyID then
            [Event.offerMove e fromMap (entryPath env e) (targetPath env e fromMap)]
          else [] := by
  unfold reconcileEntry
  cases hget : schemaMap.get e.FullName with
  | none =>
    simp only []
    split
    · rw [(removeDirectory_silent _ _).2]
      unfold readAnswer
      split <;> simp [World.print, offers_append, offers]
    · unfold readAnswer
      split <;> simp [Run.world, World.print, offers_append, offers]
  | some fromMap =>
    simp only []
    by_cases hne : fromMap = e.ColumnFamilyID
    · simp [hne, Run.world]
    · simp only [ne_eq, hne, not_false_eq_true, if_true]
      split
      · rw [(migrate_silent _ _ _ _ _).2]
        unfold readAnswer
        split <;> simp [World.print, offers_append, offers]
      · unfold readAnswer
        split <;> simp [Run.world, World.print, offers_append, offers]

/-! ## The three states of an observed entity (C2) -/

/-- C2: the loop body of `main` puts an observed entity in exactly one of three
states, told apart by the prompt it prints.  ORPHAN: the only offer is the
removal of the entity's directory, and this happens exactly when the logical
name is not a key of the index.  STALE: the only offer is the move to the
directory of the indexed identifier, exactly when the name is a key and the
indexed identifier differs.  OK: nothing is offered, exactly when the name is a
key and the identifiers are equal. -/
theorem reconcileEntry_three_states (env : Env) (schemaMap : GoMap) (e : SchemaEntry)
    (w : World) :
    (schemaMap.get e.FullName = none ↔
      offers (reconcileEntry env schemaMap e w).world.out =
        offers w.out ++ [Event.offerRemove e (entryPath env e)]) ∧
    ((∃ v, schemaMap.get e.FullName = some v ∧ v ≠ e.ColumnFamilyID) ↔
      ∃ v, offers (reconcileEntry env schemaMap e w).world.out =
        offers w.out ++ [Event.offerMove e v (entryPath env e) (targetPath env e v)]) ∧
    (schemaMap.get e.FullName = some e.ColumnFamilyID ↔
      offers (reconcileEntry env schemaMap e w).world.out = offers w.out) ∧
    ((schemaMap.get e.FullName = none ∧
        ¬ (∃ v, schemaMap.get e.FullName = some v ∧ v ≠ e.ColumnFamilyID) ∧
        ¬ schemaMap.get e.FullName = some e.ColumnFamilyID) ∨
      (¬ schemaMap.get e.FullName = none ∧
        (∃ v, schemaMap.get e.FullName = some v ∧ v ≠ e.ColumnFamilyID) ∧
        ¬ schemaMap.get e.FullName = some e.ColumnFamilyID) ∨
      (¬ schemaMap.get e.FullName = none ∧
        ¬ (∃ v, schemaMap.get e.FullName = some v ∧ v ≠ e.ColumnFamilyID) ∧
        schemaMap.get e.FullName = some e.ColumnFamilyID)) := by
  rw [reconcileEntry_offers]
  cases hget : schemaMap.get e.FullName with
  | none => simp
  | some v =>
    by_cases hv : v = e.ColumnFamilyID
    · subst hv
      simp
    · simp [hv]

/-! ## Every destructive action waits for a confirmation (C7) -/

theorem refreshCalls_append (a b : List Event) :
    refreshCalls (a ++ b) = refreshCalls a ++ refreshCalls b := by
  simp [refreshCalls]

/-- C7: in the loop body of `main`, when the run is not forced and the answer
read for the entity is not `Y`, the step ends normally with the file system
unchanged and no refresh command run, so a change of the file system or a
refresh call implies the force flag or the answer `Y`; when the run is forced,
no answer is read and the offered action (removal, or the whole move with its
refresh call) is performed; when the answer is `Y` the same action is performed
after that one answer is consumed. -/
theorem reconcileEntry_confirmation_gate (env : Env) (schemaMap : GoMap) (e : SchemaEntry)
    (w : World) :
    (env.force = false → (Scanf w.stdin).1 ≠ "Y" →
      ∃ w', reconcileEntry env schemaMap e w = .done w' ∧ w'.fs = w.fs ∧
        refreshCalls w'.out = refreshCalls w.out) ∧
    (((reconcileEntry env schemaMap e w).world.fs ≠ w.fs ∨
        refreshCalls (reconcileEntry env schemaMap e w).world.out ≠ refreshCalls w.out) →
      env.force = true ∨ (Scanf w.stdin).1 = "Y") ∧
    (env.force = true →
      (reconcileEntry env schemaMap e w).world.stdin = w.stdin ∧
      (schemaMap.get e.FullName = none →
        reconcileEntry env schemaMap e w =
          removeDirectory (entryPath env e) (w.print (.offerRemove e (entryPath env e)))) ∧
      (∀ v, schemaMap.get e.FullName = some v → v ≠ e.ColumnFamilyID →
        reconcileEntry env schemaMap e w =
          migrate env e (entryPath env e) (targetPath env e v)
            (w.print (.offerMove e v (entryPath env e) (targetPath env e v))))) ∧
    (env.force = false → (Scanf w.stdin).1 = "Y" →
      (schemaMap.get e.FullName = none →
        reconcileEntry env schemaMap e w =
          removeDirectory (entryPath env e)
            { w.print (.offerRemove e (entryPath env e)) with stdin := (Scanf w.stdin).2 }) ∧
      (∀ v, schemaMap.get e.FullName = some v → v ≠ e.ColumnFamilyID →
        reconcileEntry env schemaMap e w =
          migrate env e (entryPath env e) (targetPath env e v)
            { w.print (.offerMove e v (entryPath env e) (targetPath env e v)) with
              stdin := (Scanf w.stdin).2 })) := by
  have hquiet : env.force = false → (Scanf w.stdin).1 ≠ "Y" →
      ∃ w', reconcileEntry env schemaMap e w = .done w' ∧ w'.fs = w.fs ∧
        refreshCalls w'.out = refreshCalls w.out := by
    intro hf hans
    unfold reconcileEntry readAnswer
    cases hget : schemaMap.get e.FullName with
    | none => simp [hf, hans, World.print, refreshCalls_append, refreshCalls]
    | some v =>
      by_cases hv : v = e.ColumnFamilyID
      · simp [hv]
      · simp [hf, hans, hv, World.print, refreshCalls_append, refreshCalls]
  refine ⟨hquiet, ?_, ?_, ?_⟩
  · intro hchg
    by_contra hcon
    simp only [not_or] at hcon
    have hf : env.force = false := by
      cases h : env.force
      · rfl
      · exact absurd h hcon.1
    obtain ⟨w', hw', hfs, hrc⟩ := hquiet hf hcon.2
    rw [hw'] at hchg
    rcases hchg with h | h
    · exact h hfs
    · exact h hrc
  · intro hf
    refine ⟨?_, ?_, ?_⟩
    · unfold reconcileEntry readAnswer
      cases hget : schemaMap.get e.FullName with
      | none =>
        simp only [hf, if_true, Bool.true_or]
        rw [(removeDirectory_silent _ _).1]
        rfl
      | some v =>
        by_cases hv : v = e.ColumnFamilyID
        · simp [hv, Run.world]
        · simp only [ne_eq, hv, not_false_eq_true, hf, if_true, Bool.true_or]
          rw [(migrate_silent _ _ _ _ _).1]
          rfl
    · intro hget
      unfold reconcileEntry readAnswer
      simp [hget, hf]
    · intro v hget hv
      unfold reconcileEntry readAnswer
      simp [hget, hf, hv]
  · intro hf hans
    refine ⟨?_, ?_⟩
    · intro hget
      unfold reconcileEntry readAnswer
      simp [hget, hf, hans, World.print]
    · intro v hget hv
      unfold reconcileEntry readAnswer
      simp [hget, hf, hans, hv, World.print]

/-- C7 at an orphan directory: the answer `n` leaves it alone, the force flag
removes it without reading the answer. -/
theorem reconcileEntry_confirmation_gate_witness :
    (∃ w', reconcileEntry ⟨[], false, refreshOk⟩ [] ⟨"ks1", "cf1", "id1"⟩
        ⟨staleFsNoDest, ["n"], []⟩ = .done w' ∧ w'.fs = staleFsNoDest ∧
        refreshCalls w'.out = refreshCalls []) ∧
    (reconcileEntry ⟨[], true, refreshOk⟩ [] ⟨"ks1", "cf1", "id1"⟩
        ⟨staleFsNoDest, ["n"], []⟩).world.stdin = ["n"] ∧
    (reconcileEntry ⟨[], true, refreshOk⟩ [] ⟨"ks1", "cf1", "id1"⟩
        ⟨staleFsNoDest, ["n"], []⟩).world.fs = .dir [("ks1", .dir [])] :=
  ⟨(reconcileEntry_confirmation_gate ⟨[], false, refreshOk⟩ [] ⟨"ks1", "cf1", "id1"⟩
      ⟨staleFsNoDest, ["n"], []⟩).1 rfl (by decide),
   ((reconcileEntry_confirmation_gate ⟨[], true, refreshOk⟩ [] ⟨"ks1", "cf1", "id1"⟩
      ⟨staleFsNoDest, ["n"], []⟩).2.2.1 rfl).1,
   by decide⟩

/-! ## A data folder in step with the schema (C3) -/

theorem find_of_nodup_names (l : List SchemaEntry)
    (hnd : (l.map SchemaEntry.FullName).Nodup) (e : SchemaEntry) (he : e ∈ l) :
    l.find? (fun x => decide (x.FullName = e.FullName)) = some e := by
  induction l with
  | nil => cases he
  | cons x rest ih =>
    rw [List.map_cons, List.nodup_cons] at hnd
    rcases List.mem_cons.1 he with h | h
    · subst h
      simp [List.find?]
    · have hne : x.FullName ≠ e.FullName := by
        intro hx
        exact hnd.1 (hx ▸ List.mem_map_of_mem _ h)
      simp [List.find?, hne, ih hnd.2 h]

theorem sortSchema_perm (schema : Schema) : (sortSchema schema).Perm schema :=
  List.perm_insertionSort _ schema

theorem getSchemaMapLoop_offers (name : String) (l : List SchemaEntry) (m : GoMap)
    (out : List Event) :
    offers (getSchemaMapLoop name l (m, out)).2 = offers out ∧
    refreshCalls (getSchemaMapLoop name l (m, out)).2 = refreshCalls out := by
  induction l generalizing m out with
  | nil => exact ⟨rfl, rfl⟩
  | cons e rest ih =>
    unfold getSchemaMapLoop
    split
    · rw [(ih _ _).1, (ih _ _).2]
      simp [offers_append, refreshCalls_append, offers, refreshCalls]
    · exact ih _ _

theorem reconcileLoop_all_ok (env : Env) (schemaMap : GoMap) (l : List SchemaEntry) (w : World)
    (hok : ∀ e ∈ l, schemaMap.get e.FullName = some e.ColumnFamilyID) :
    reconcileLoop env schemaMap l w = .done w := by
  induction l with
  | nil => rfl
  | cons e rest ih =>
    unfold reconcileLoop
    have he : reconcileEntry env schemaMap e w = .done w := by
      unfold reconcileEntry
      simp [hok e (List.mem_cons_self _ _)]
    rw [he]
    exact ih (fun x hx => hok x (List.mem_cons_of_mem _ hx))

/-- C3: when the logical names of the declared set are pairwise distinct and
every observed entity occurs in the declared set, the run after the builders
(sort both, build the index, go through the observed entities) ends normally,
offers nothing, runs no refresh command, reads no answer and leaves the file
system as it was, whatever the force flag, the answers and the refresh command
are; declared entities with no observed counterpart change nothing. -/
theorem reconcileRun_in_step (env : Env) (declared observed : Schema) (w : World)
    (hnames : (declared.map SchemaEntry.FullName).Nodup)
    (hsub : ∀ e ∈ observed, e ∈ declared) :
    ∃ w', reconcileRun env declared observed w = .done w' ∧ w'.fs = w.fs ∧
      w'.stdin = w.stdin ∧ offers w'.out = offers w.out ∧
      refreshCalls w'.out = refreshCalls w.out := by
  unfold reconcileRun
  dsimp only
  have hnd : ((sortSchema declared).map SchemaEntry.FullName).Nodup :=
    (((sortSchema_perm declared).map SchemaEntry.FullName).nodup_iff).2 hnames
  rw [reconcileLoop_all_ok]
  · refine ⟨_, rfl, rfl, rfl, ?_, ?_⟩
    · have := (getSchemaMapLoop_offers "Schema File" (sortSchema declared) [] []).1
      simp only [getSchemaMapOutput, World.print, offers_append, this]
      simp [offers]
    · have := (getSchemaMapLoop_offers "Schema File" (sortSchema declared) [] []).2
      simp only [getSchemaMapOutput, World.print, refreshCalls_append, this]
      simp [refreshCalls]
  · intro e he
    have he1 : e ∈ sortSchema declared :=
      (sortSchema_perm declared).mem_iff.2 (hsub e ((sortSchema_perm observed).mem_iff.1 he))
    rw [getSchemaMap_get, find_of_nodup_names _ hnd e he1]
    rfl

/-- C3 at declared = observed = (ks1, cf1, id1), forced, and at a declared set
with one more entity that is not on disk, with the answer `Y` waiting. -/
theorem reconcileRun_in_step_witness :
    (∃ w', reconcileRun ⟨[], true, refreshOk⟩ [⟨"ks1", "cf1", "id1"⟩] [⟨"ks1", "cf1", "id1"⟩]
        ⟨.dir [("ks1", .dir [("cf1-id1", .dir [("sstable1", .file "x")])])], [], []⟩
        = .done w' ∧
      w'.fs = .dir [("ks1", .dir [("cf1-id1", .dir [("sstable1", .file "x")])])] ∧
      w'.stdin = [] ∧ offers w'.out = offers [] ∧ refreshCalls w'.out = refreshCalls []) ∧
    (∃ w', reconcileRun ⟨[], false, refreshOk⟩
        [⟨"ks1", "cf1", "id1"⟩, ⟨"ks1", "cf2", "id7"⟩] [⟨"ks1", "cf1", "id1"⟩]
        ⟨.dir [("ks1", .dir [("cf1-id1", .dir [("sstable1", .file "x")])])], ["Y"], []⟩
        = .done w' ∧
      w'.fs = .dir [("ks1", .dir [("cf1-id1", .dir [("sstable1", .file "x")])])] ∧
      w'.stdin = ["Y"] ∧ offers w'.out = offers [] ∧ refreshCalls w'.out = refreshCalls []) :=
  ⟨reconcileRun_in_step ⟨[], true, refreshOk⟩ [⟨"ks1", "cf1", "id1"⟩] [⟨"ks1", "cf1", "id1"⟩]
      ⟨.dir [("ks1", .dir [("cf1-id1", .dir [("sstable1", .file "x")])])], [], []⟩
      (by decide) (by decide),
   reconcileRun_in_step ⟨[], false, refreshOk⟩
      [⟨"ks1", "cf1", "id1"⟩, ⟨"ks1", "cf2", "id7"⟩] [⟨"ks1", "cf1", "id1"⟩]
      ⟨.dir [("ks1", .dir [("cf1-id1", .dir [("sstable1", .file "x")])])], ["Y"], []⟩
      (by decide) (by decide)⟩

/-! ## The order of `Less` and the sorted schema -/

theorem ltChars_cons (x y : Char) (xs ys : List Char) :
    ltChars (x :: xs) (y :: ys) = true ↔
      x.toNat < y.toNat ∨ (x.toNat = y.toNat ∧ ltChars xs ys = true) := by
  simp only [ltChars]
  by_cases h1 : x.toNat < y.toNat
  · simp [h1]
  · by_cases h2 : y.toNat < x.toNat
    · have h3 : x.toNat ≠ y.toNat := by omega
      simp [h1, h2, h3]
    · have h3 : x.toNat = y.toNat := by omega
      simp [h1, h2, h3]

theorem ltChars_irrefl (a : List Char) : ltChars a a = false := by
  induction a with
  | nil => rfl
  | cons x xs ih =>
    cases h : ltChars (x :: xs) (x :: xs) with
    | false => rfl
    | true =>
      rw [ltChars_cons] at h
      rcases h with h | ⟨_, h⟩
      · omega
      · rw [ih] at h; cases h

theorem ltChars_trans (a b c : List Char) (hab : ltChars a b = true)
    (hbc : ltChars b c = true) : ltChars a c = true := by
  induction a generalizing b c with
  | nil =>
    cases b with
    | nil => simp [ltChars] at hab
    | cons y ys =>
      cases c with
      | nil => simp [ltChars] at hbc
      | cons z zs => simp [ltChars]
  | cons x xs ih =>
    cases b with
    | nil => simp [ltChars] at hab
    | cons y ys =>
      cases c with
      | nil => simp [ltChars] at hbc
      | cons z zs =>
        rw [ltChars_cons] at hab hbc ⊢
        rcases hab with h1 | ⟨h1, h1'⟩ <;> rcases hbc with h2 | ⟨h2, h2'⟩
        · exact Or.inl (by omega)
        · exact Or.inl (by omega)
        · exact Or.inl (by omega)
        · exact Or.inr ⟨by omega, ih ys zs h1' h2'⟩

theorem ltChars_total (a b : List Char) (hne : a ≠ b) :
    ltChars a b = true ∨ ltChars b a = true := by
  induction a generalizing b with
  | nil =>
    cases b with
    | nil => exact absurd rfl hne
    | cons y ys => exact Or.inl rfl
  | cons x xs ih =>
    cases b with
    | nil => exact Or.inr rfl
    | cons y ys =>
      rw [ltChars_cons, ltChars_cons]
      rcases Nat.lt_trichotomy x.toNat y.toNat with h | h | h
      · exact Or.inl (Or.inl h)
      · have hxy : x = y := by
          have := congrArg Char.ofNat h
          simpa using this
        subst hxy
        have hne' : xs ≠ ys := fun h' => hne (by rw [h'])
        rcases ih ys hne' with h' | h'
        · exact Or.inl (Or.inr ⟨rfl, h'⟩)
        · exact Or.inr (Or.inr ⟨rfl, h'⟩)
      · exact Or.inr (Or.inl h)

theorem strLt_irrefl (a : String) : strLt a a = false := ltChars_irrefl a.data

theorem strLt_trans {a b c : String} (hab : strLt a b = true) (hbc : strLt b c = true) :
    strLt a c = true := ltChars_trans _ _ _ hab hbc

theorem strLt_total {a b : String} (hne : a ≠ b) : strLt a b = true ∨ strLt b a = true :=
  ltChars_total _ _ (fun h => hne (String.ext h))

theorem strLt_ne {a b : String} (h : strLt a b = true) : a ≠ b := by
  intro hab
  rw [hab, strLt_irrefl] at h
  cases h

theorem strLt_asymm {a b : String} (h : strLt a b = true) : strLt b a = false := by
  cases h' : strLt b a with
  | false => rfl
  | true =>
    have := strLt_trans h h'
    rw [strLt_irrefl] at this
    cases this

theorem Less_irrefl (a : SchemaEntry) : Schema.Less a a = false := by
  simp [Schema.Less, strLt_irrefl]

theorem Less_trans {a b c : SchemaEntry} (hab : Schema.Less a b = true)
    (hbc : Schema.Less b c = true) : Schema.Less a c = true := by
  obtain ⟨a1, a2, a3⟩ := a
  obtain ⟨b1, b2, b3⟩ := b
  obtain ⟨c1, c2, c3⟩ := c
  unfold Schema.Less at hab hbc ⊢
  dsimp only at hab hbc ⊢
  by_cases h1 : a1 = b1
  · subst h1
    by_cases h2 : a1 = c1
    · subst h2
      simp only [if_true] at hab hbc ⊢
      by_cases h3 : a2 = b2
      · subst h3
        by_cases h4 : a2 = c2
        · subst h4
          simp only [if_true] at hab hbc ⊢
          exact strLt_trans hab hbc
        · simp only [h4, if_false, if_true] at hab hbc ⊢
          exact hbc
      · by_cases h4 : b2 = c2
        · subst h4
          simp only [h3, if_false, if_true] at hab hbc ⊢
          exact hab
        · simp only [h3, h4, if_false] at hab hbc
          have hac := strLt_trans hab hbc
          simp only [strLt_ne hac, if_false]
          exact hac
    · simp only [h2, if_false, if_true] at hab hbc ⊢
      exact hbc
  · by_cases h2 : b1 = c1
    · subst h2
      simp only [h1, if_false, if_true] at hab hbc ⊢
      exact hab
    · simp only [h1, h2, if_false] at hab hbc
      have hac := strLt_trans hab hbc
      simp only [strLt_ne hac, if_false]
      exact hac

theorem Less_total {a b : SchemaEntry} (hne : a ≠ b) :
    Schema.Less a b = true ∨ Schema.Less b a = true := by
  obtain ⟨a1, a2, a3⟩ := a
  obtain ⟨b1, b2, b3⟩ := b
  unfold Schema.Less
  dsimp only
  by_cases h1 : a1 = b1
  · subst h1
    by_cases h2 : a2 = b2
    · subst h2
      simp only [if_true]
      exact strLt_total (fun h => hne (by rw [h]))
    · simp only [h2, Ne.symm h2, if_false, if_true]
      exact strLt_total h2
  · simp only [h1, Ne.symm h1, if_false]
    exact strLt_total h1

theorem Less_asymm {a b : SchemaEntry} (h : Schema.Less a b = true) :
    Schema.Less b a = false := by
  cases h' : Schema.Less b a with
  | false => rfl
  | true =>
    have := Less_trans h h'
    rw [Less_irrefl] at this
    cases this

theorem lessTotal : IsTotal SchemaEntry (fun a b => Schema.Less b a = false) :=
  ⟨fun a b => by
    cases h : Schema.Less b a with
    | false => exact Or.inl rfl
    | true => exact Or.inr (Less_asymm h)⟩

theorem lessTrans : IsTrans SchemaEntry (fun a b => Schema.Less b a = false) :=
  ⟨fun a b c hab hbc => by
    show Schema.Less c a = false
    cases hca : Schema.Less c a with
    | false => rfl
    | true =>
      by_cases hne : a = b
      · subst hne
        rw [hca] at hbc
        cases hbc
      · rcases Less_total hne with h | h
        · have := Less_trans hca h
          rw [this] at hbc
          cases hbc
        · rw [h] at hab
          cases hab⟩

theorem lessAntisymm : IsAntisymm SchemaEntry (fun a b => Schema.Less b a = false) :=
  ⟨fun a b hab hba => by
    by_contra hne
    rcases Less_total hne with h | h
    · rw [h] at hba; cases hba
    · rw [h] at hab; cases hab⟩

theorem sortSchema_sorted (schema : Schema) :
    (sortSchema schema).Sorted (fun a b => Schema.Less b a = false) :=
  @List.sorted_insertionSort _ _ _ lessTotal lessTrans schema

/-- Any rearrangement of a schema in which no entry is `Less` than an earlier
one is the sequence `sortSchema` returns: the result of `sort.Sort` does not
depend on the algorithm. -/
theorem sortSchema_unique (schema sorted : Schema) (hperm : sorted.Perm schema)
    (hsorted : sorted.Sorted (fun a b => Schema.Less b a = false)) :
    sorted = sortSchema schema :=
  @List.eq_of_perm_of_sorted _ _ lessAntisymm _ _ (hperm.trans (sortSchema_perm schema).symm)
    hsorted (sortSchema_sorted schema)

/-! ## Which identifier a repeated logical name gets (C9) -/

theorem reconcileRun_uses_declaredIndex (env : Env) (declared observed : Schema) (w : World) :
    reconcileRun env declared observed w =
      reconcileLoop env (declaredIndex declared) (sortSchema observed)
        { ((w.print (.listing "From Schema File:" (sortSchema declared))).print
            (.listing "From Data Folder:" (sortSchema observed))) with
          out := ((w.print (.listing "From Schema File:" (sortSchema declared))).print
            (.listing "From Data Folder:" (sortSchema observed))).out ++
              getSchemaMapOutput (sortSchema declared) "Schema File" } := rfl

/-- C9 fails as stated: with the rows `ks1|cf1|id2` and `ks1|cf1|id1` in this
order, the first row has identifier `id2`, but `main` sorts the declared schema
before it builds the index, so the index holds `id1`; a directory `cf1-id2` on
disk is then offered a move to `cf1-id1`. -/
theorem declaredIndex_not_first_row :
    getFromSchemaFile (some ⟨"--+--\nks1|cf1|id2\nks1|cf1|id1\n", none⟩) =
      .ok [⟨"ks1", "cf1", "id2"⟩, ⟨"ks1", "cf1", "id1"⟩] ∧
    (declaredIndex [⟨"ks1", "cf1", "id2"⟩, ⟨"ks1", "cf1", "id1"⟩]).get "ks1.cf1" = some "id1" ∧
    (([⟨"ks1", "cf1", "id2"⟩, ⟨"ks1", "cf1", "id1"⟩] : Schema).find?
      (fun e => decide (e.FullName = "ks1.cf1"))).map SchemaEntry.ColumnFamilyID = some "id2" ∧
    (main ⟨[], false, refreshOk⟩ (some ⟨"--+--\nks1|cf1|id2\nks1|cf1|id1\n", none⟩)
      ⟨.dir [("ks1", .dir [("cf1-id2", .dir [])])], ["n"], []⟩) =
      .ok (.done ⟨.dir [("ks1", .dir [("cf1-id2", .dir [])])], [],
        [.listing "From Schema File:" [⟨"ks1", "cf1", "id1"⟩, ⟨"ks1", "cf1", "id2"⟩],
         .listing "From Data Folder:" [⟨"ks1", "cf1", "id2"⟩],
         .duplicate "Schema File" "id1" ⟨"ks1", "cf1", "id2"⟩,
         .offerMove ⟨"ks1", "cf1", "id2"⟩ "id1" ["ks1", "cf1-id2"] ["ks1", "cf1-id1"]]⟩) := by
  decide

/-- C9 as amended: for every declared schema and every logical name that
occurs in it, the index `main` compares against holds the identifier of the
first entry with that name in the sorted schema, which is a declared row that
no declared row with the same logical name is `Less` than; among the rows with
its group and name it has the least identifier.  Building the index never stops
the run: with no observed entity the run ends normally. -/
theorem declaredIndex_least_row (env : Env) (rows : Schema) (w : World) (e : SchemaEntry)
    (he : e ∈ rows) :
    (∃ first ∈ rows, first.FullName = e.FullName ∧
      (sortSchema rows).find? (fun x => decide (x.FullName = e.FullName)) = some first ∧
      (declaredIndex rows).get e.FullName = some first.ColumnFamilyID ∧
      (∀ r ∈ rows, r.FullName = e.FullName → Schema.Less r first = false) ∧
      (∀ r ∈ rows, r.Keyspace = first.Keyspace → r.ColumnFamily = first.ColumnFamily →
        strLt r.ColumnFamilyID first.ColumnFamilyID = false)) ∧
    (∃ w', reconcileRun env rows [] w = .done w' ∧ w'.fs = w.fs) := by
  constructor
  · have hmem : e ∈ sortSchema rows := (sortSchema_perm rows).mem_iff.2 he
    cases hfind : (sortSchema rows).find? (fun x => decide (x.FullName = e.FullName)) with
    | none =>
      rw [List.find?_eq_none] at hfind
      have := hfind e hmem
      simp at this
    | some first =>
      have hsome := hfind
      rw [List.find?_eq_some] at hfind
      obtain ⟨hp, l1, l2, hl, hl1⟩ := hfind
      have hname : first.FullName = e.FullName := by simpa using hp
      have hfirst : first ∈ rows :=
        (sortSchema_perm rows).mem_iff.1 (by rw [hl]; simp)
      have hleast : ∀ r ∈ rows, r.FullName = e.FullName → Schema.Less r first = false := by
        intro r hr hrn
        have hr' : r ∈ sortSchema rows := (sortSchema_perm rows).mem_iff.2 hr
        rw [hl] at hr'
        rcases List.mem_append.1 hr' with h | h
        · have := hl1 r h
          simp [hrn] at this
        · rcases List.mem_cons.1 h with h | h
          · rw [h]; exact Less_irrefl first
          · have hs := sortSchema_sorted rows
            rw [hl] at hs
            have hs2 := (List.pairwise_append.1 hs).2.1
            exact List.rel_of_pairwise_cons hs2 h
      refine ⟨first, hfirst, hname, rfl, ?_, hleast, ?_⟩
      · unfold declaredIndex
        rw [getSchemaMap_get, hsome]
        rfl
      · intro r hr hk hc
        have := hleast r hr (by rw [← hname]; simp [SchemaEntry.FullName, hk, hc])
        simpa [Schema.Less, hk, hc] using this
  · exact ⟨_, rfl, rfl⟩

/-- C9 as amended, at the rows `ks1|cf1|id2`, `ks1|cf1|id1`. -/
theorem declaredIndex_least_row_witness :
    (∃ first ∈ ([⟨"ks1", "cf1", "id2"⟩, ⟨"ks1", "cf1", "id1"⟩] : Schema),
      first.FullName = SchemaEntry.FullName ⟨"ks1", "cf1", "id2"⟩ ∧
      (sortSchema [⟨"ks1", "cf1", "id2"⟩, ⟨"ks1", "cf1", "id1"⟩]).find?
        (fun x => decide (x.FullName = SchemaEntry.FullName ⟨"ks1", "cf1", "id2"⟩)) = some first ∧
      (declaredIndex [⟨"ks1", "cf1", "id2"⟩, ⟨"ks1", "cf1", "id1"⟩]).get
        (SchemaEntry.FullName ⟨"ks1", "cf1", "id2"⟩) = some first.ColumnFamilyID ∧
      (∀ r ∈ ([⟨"ks1", "cf1", "id2"⟩, ⟨"ks1", "cf1", "id1"⟩] : Schema),
        r.FullName = SchemaEntry.FullName ⟨"ks1", "cf1", "id2"⟩ → Schema.Less r first = false) ∧
      (∀ r ∈ ([⟨"ks1", "cf1", "id2"⟩, ⟨"ks1", "cf1", "id1"⟩] : Schema),
        r.Keyspace = first.Keyspace → r.ColumnFamily = first.ColumnFamily →
        strLt r.ColumnFamilyID first.ColumnFamilyID = false)) :=
  (declaredIndex_least_row ⟨[], false, refreshOk⟩
    [⟨"ks1", "cf1", "id2"⟩, ⟨"ks1", "cf1", "id1"⟩] ⟨.dir [], [], []⟩ ⟨"ks1", "cf1", "id2"⟩
    (by decide)).1

/-! ## The declared-source builder and the field count of a row (C10) -/

theorem getFromSchemaFileLoop_started (lines : List String) (schema : Schema) :
    getFromSchemaFileLoop lines true schema =
      if ∀ row ∈ (lines.map TrimSpace).takeWhile (fun l => !decide (l = "")),
          3 ≤ (Split row '|').length then
        .ok (schema ++ ((lines.map TrimSpace).takeWhile (fun l => !decide (l = ""))).map rowEntry)
      else .panic "index out of range" := by
  induction lines generalizing schema with
  | nil => simp [getFromSchemaFileLoop]
  | cons line rest ih =>
    unfold getFromSchemaFileLoop
    by_cases hblank : TrimSpace line = ""
    · simp [hblank]
    · simp only [Bool.not_true, Bool.false_eq_true, if_false, hblank, List.map_cons,
        List.takeWhile_cons, decide_False, Bool.not_false, if_true, List.forall_mem_cons]
      rcases hf : Split (TrimSpace line) '|' with _ | ⟨f0, _ | ⟨f1, _ | ⟨f2, more⟩⟩⟩
      · simp
      · simp
      · simp
      · simp only [List.get?_cons_zero, List.get?_cons_succ, ih, List.length_cons]
        have h3 : 3 ≤ more.length + 1 + 1 + 1 := by omega
        simp only [h3, true_and, List.map_cons, rowEntry, hf, List.getD_cons_zero,
          List.getD_cons_succ]
        split <;> simp

theorem getFromSchemaFileLoop_header (lines : List String) (schema : Schema) :
    getFromSchemaFileLoop lines false schema =
      getFromSchemaFileLoop ((lines.dropWhile (fun l => !Contains l '-')).drop 1) true schema := by
  induction lines with
  | nil => simp [getFromSchemaFileLoop]
  | cons line rest ih =>
    conv_lhs => unfold getFromSchemaFileLoop
    by_cases h : Contains line '-' = true
    · simp [h, List.dropWhile_cons]
    · simp only [Bool.not_eq_true] at h
      simp [h, List.dropWhile_cons, ih]

theorem getFromSchemaFile_eq (f : SchemaFile) :
    getFromSchemaFile (some f) =
      if ∀ row ∈ dataRows (scanLines f.delivered), 3 ≤ (Split row '|').length then
        .ok ((dataRows (scanLines f.delivered)).map rowEntry)
      else .panic "index out of range" := by
  unfold getFromSchemaFile dataRows
  simp only [getFromSchemaFileLoop_header, getFromSchemaFileLoop_started, List.nil_append]

/-- A text without a line of `maxScanTokenSize` bytes or more is scanned line by
line to its end. -/
theorem scanLines_eq_textLines (text : String)
    (hshort : ∀ l ∈ rawLines text, (String.mk l).utf8ByteSize < maxScanTokenSize) :
    scanLines text = textLines text := by
  unfold scanLines textLines
  congr 1
  rw [List.takeWhile_eq_self_iff]
  intro l hl
  simpa using hshort l hl

/-- The scan ends at a line that does not fit the buffer: the lines after it
are not seen, and nothing tells the loop of `getFromSchemaFile` so. -/
theorem scanLines_stops_at_long_line (text : String) (pre post : List (List Char))
    (long : List Char) (hlines : rawLines text = pre ++ long :: post)
    (hpre : ∀ l ∈ pre, (String.mk l).utf8ByteSize < maxScanTokenSize)
    (hlong : maxScanTokenSize ≤ (String.mk long).utf8ByteSize) :
    scanLines text = pre.map (fun l => String.mk (dropCR l)) := by
  unfold scanLines
  congr 1
  rw [hlines, List.takeWhile_append_of_pos (by simpa using hpre)]
  have : ¬ (String.mk long).utf8ByteSize < maxScanTokenSize := by omega
  rw [List.takeWhile_cons, if_neg (by simpa using this), List.append_nil]

/-- A read error after the first data row: the rows read so far are returned,
as at the end of a shorter file. -/
theorem getFromSchemaFile_after_read_error :
    getFromSchemaFile (some ⟨"--+--\na|b|c\nd|e|f\n", some 12⟩) = .ok [⟨"a", "b", "c"⟩] := by
  decide

/-- C10 fails as stated: the data row `a|b|c|d` splits into four fields, not
three, and `getFromSchemaFile` does not fail on it; it returns the entity of the
first three fields. -/
theorem getFromSchemaFile_accepts_four_fields :
    dataRows (textLines "--+--\na|b|c|d\n") = ["a|b|c|d"] ∧
    (Split "a|b|c|d" '|').length = 4 ∧
    getFromSchemaFile (some ⟨"--+--\na|b|c|d\n", none⟩) = .ok [⟨"a", "b", "c"⟩] := by
  decide

/-- C10 as amended: for every declared-source text that is read to its end
(no read error, no line of 64 KiB or more, at which the scanner would stop),
`getFromSchemaFile` either fails for the whole run or returns exactly one
entity per data row, with group, name and identifier taken from fields 0, 1 and
2 of the row split on `|`.  It fails (a run-time panic, no entity set returned)
whenever some data row has fewer than three fields, and only then once the file
is open; a row with more than three fields is accepted and its further fields
are ignored. -/
theorem getFromSchemaFile_field_count (f : SchemaFile) (hread : f.readError = none)
    (hshort : ∀ l ∈ rawLines f.text, (String.mk l).utf8ByteSize < maxScanTokenSize) :
    (getFromSchemaFile (some f) = .ok ((dataRows (textLines f.text)).map rowEntry) ∨
      getFromSchemaFile (some f) = .panic "index out of range") ∧
    ((∀ row ∈ dataRows (textLines f.text), 3 ≤ (Split row '|').length) →
      getFromSchemaFile (some f) = .ok ((dataRows (textLines f.text)).map rowEntry)) ∧
    ((∃ row ∈ dataRows (textLines f.text), (Split row '|').length < 3) →
      getFromSchemaFile (some f) = .panic "index out of range") ∧
    getFromSchemaFile none = .exit "Can't open schema file" := by
  have hdel : f.delivered = f.text := by
    unfold SchemaFile.delivered
    rw [hread]
  rw [getFromSchemaFile_eq, hdel, scanLines_eq_textLines f.text hshort]
  refine ⟨?_, ?_, ?_, rfl⟩
  · split
    · exact Or.inl rfl
    · exact Or.inr rfl
  · intro h
    rw [if_pos h]
  · rintro ⟨row, hrow, hlen⟩
    rw [if_neg]
    intro h
    have := h row hrow
    omega

/-- C10 as amended, at a text with a header, two rows (one of four fields) and
a row after the blank line, and at a text with a row of two fields. -/
theorem getFromSchemaFile_field_count_witness :
    getFromSchemaFile (some ⟨"h\n--+--\n a | b | c-d \r\n x|y|z|w\n\nq|r\n", none⟩) =
      .ok [⟨"a", "b", "cd"⟩, ⟨"x", "y", "z"⟩] ∧
    getFromSchemaFile (some ⟨"--+--\na|b|c\n a | b ", none⟩) = .panic "index out of range" :=
  ⟨(getFromSchemaFile_field_count ⟨"h\n--+--\n a | b | c-d \r\n x|y|z|w\n\nq|r\n", none⟩ rfl
      (by decide)).2.1 (by decide),
   (getFromSchemaFile_field_count ⟨"--+--\na|b|c\n a | b ", none⟩ rfl (by decide)).2.2.1
      ⟨"a | b", by decide, by decide⟩⟩

/-! ## Splitting a leaf directory name at the last dash (C4) -/

theorem lastIndexChars_of_not_mem (sep : Char) (l : List Char) (h : sep ∉ l) :
    lastIndexChars sep l = -1 := by
  induction l with
  | nil => rfl
  | cons c cs ih =>
    have hc : c ≠ sep := fun hc => h (by simp [hc])
    have hcs : sep ∉ cs := fun hcs => h (by simp [hcs])
    simp [lastIndexChars, ih hcs, hc]

theorem lastIndexChars_of_mem (sep : Char) (l : List Char) (h : sep ∈ l) :
    ∃ pre post, l = pre ++ sep :: post ∧ sep ∉ post ∧
      lastIndexChars sep l = (pre.length : Int) := by
  induction l with
  | nil => cases h
  | cons c cs ih =>
    by_cases hcs : sep ∈ cs
    · obtain ⟨pre, post, hl, hpost, hidx⟩ := ih hcs
      refine ⟨c :: pre, post, by rw [hl]; rfl, hpost, ?_⟩
      have h0 : (0 : Int) ≤ (pre.length : Int) := Int.natCast_nonneg _
      simp only [lastIndexChars, hidx, h0, if_true, List.length_cons]
      omega
    · have hc : c = sep := by
        rcases List.mem_cons.1 h with h' | h'
        · exact h'.symm
        · exact absurd h' hcs
      refine ⟨[], cs, by rw [hc]; rfl, hcs, ?_⟩
      simp [lastIndexChars, lastIndexChars_of_not_mem sep cs hcs, hc]

theorem leafEntity_split (keyspace d : String) (hdash : '-' ∈ d.data) :
    sliceTo d (LastIndex d '-') = .ok (leafEntity keyspace d).ColumnFamily ∧
    sliceFrom d (LastIndex d '-' + 1) = .ok (leafEntity keyspace d).ColumnFamilyID ∧
    (leafEntity keyspace d).ColumnFamily ++ "-" ++ (leafEntity keyspace d).ColumnFamilyID = d ∧
    '-' ∉ (leafEntity keyspace d).ColumnFamilyID.data ∧
    ((leafEntity keyspace d).ColumnFamily = "" ↔ LastIndex d '-' = 0) := by
  obtain ⟨pre, post, hl, hpost, hidx⟩ := lastIndexChars_of_mem '-' d.data hdash
  have hlen : d.data.length = pre.length + (post.length + 1) := by
    rw [hl]; simp
  have h0 : (0 : Int) ≤ (pre.length : Int) := Int.natCast_nonneg _
  have htake : d.data.take pre.length = pre := by
    rw [hl]; simp
  have hdrop : d.data.drop (pre.length + 1) = post := by
    rw [hl]
    rw [List.drop_append_eq_append_drop]
    simp
  have hnat1 : ((pre.length : Int)).toNat = pre.length := Int.toNat_natCast _
  have hnat2 : ((pre.length : Int) + 1).toNat = pre.length + 1 := by omega
  refine ⟨?_, ?_, ?_, ?_, ?_⟩
  · unfold sliceTo leafEntity LastIndex
    rw [hidx, if_pos ⟨h0, by omega⟩]
  · unfold sliceFrom leafEntity LastIndex
    rw [hidx, if_pos ⟨by omega, by omega⟩]
  · unfold leafEntity LastIndex
    rw [hidx, hnat1, hnat2, htake, hdrop]
    apply String.ext
    simp [hl]
  · unfold leafEntity LastIndex
    rw [hidx, hnat2, hdrop]
    exact hpost
  · unfold leafEntity LastIndex
    rw [hidx, hnat1, htake]
    constructor
    · intro h
      have : pre = [] := by
        have := congrArg String.data h
        simpa using this
      simp [this]
    · intro h
      have : pre = [] := by
        have : pre.length = 0 := by omega
        exact List.length_eq_zero.1 this
      rw [this]

theorem firstIsNot_of_visible (fi : FileInfo) (h : visible fi = true) :
    fi.IsDir = true ∧ firstIsNot fi.Name '.' = .ok true := by
  unfold visible at h
  unfold firstIsNot
  cases hd : fi.Name.data with
  | nil => simp [hd] at h
  | cons c cs =>
    simp only [hd, Bool.and_eq_true] at h
    exact ⟨h.1, by simp [h.2]⟩

theorem firstIsNot_of_not_visible (fi : FileInfo) (hdir : fi.IsDir = true)
    (hname : fi.Name ≠ "") (h : visible fi = false) :
    firstIsNot fi.Name '.' = .ok false := by
  unfold visible at h
  unfold firstIsNot
  cases hd : fi.Name.data with
  | nil => exact absurd (String.ext (by rw [hd])) hname
  | cons c cs =>
    simp only [hd, hdir, Bool.true_and] at h
    simp [h]

/-- The inner loop of the observed builder in closed form. -/
theorem columnFamilyLoop_eq (keyspace : String) (files : List FileInfo) (schema : Schema)
    (hnames : ∀ c ∈ files, c.Name ≠ "")
    (hdash : ∀ c ∈ files, visible c = true → '-' ∈ c.Name.data) :
    columnFamilyLoop keyspace files schema =
      .ok (schema ++ (files.filter visible).map (fun c => leafEntity keyspace c.Name)) := by
  induction files generalizing schema with
  | nil => simp [columnFamilyLoop]
  | cons c rest ih =>
    have ihr := fun schema => ih schema (fun x hx => hnames x (List.mem_cons_of_mem _ hx))
      (fun x hx => hdash x (List.mem_cons_of_mem _ hx))
    unfold columnFamilyLoop
    dsimp only
    by_cases hdir : c.IsDir = true
    · by_cases hvis : visible c = true
      · have hsplit := leafEntity_split keyspace c.Name (hdash c (List.mem_cons_self _ _) hvis)
        simp only [hdir, if_true, (firstIsNot_of_visible c hvis).2, hsplit.1, hsplit.2.1, ihr,
          List.filter_cons, hvis, List.map_cons]
        simp [leafEntity]
      · simp only [Bool.not_eq_true] at hvis
        simp only [hdir, if_true,
          firstIsNot_of_not_visible c hdir (hnames c (List.mem_cons_self _ _)) hvis, ihr,
          List.filter_cons, hvis]
        simp
    · have hvis : visible c = false := by
        simp only [Bool.not_eq_true] at hdir
        simp [visible, hdir]
      simp only [hdir, ihr, List.filter_cons, hvis]
      simp

/-- C4: for every leaf directory name `d` that contains `-`, the observed
builder splits it at the last `-`: the slices it takes succeed and give a name
`n` and an identifier `i` with `n + "-" + i = d` and no `-` in `i`; when the
directory is not hidden the inner loop of `getFromDataFolder` appends exactly
the entity `(keyspace, n, i)`; and the path `main` rebuilds for that entity ends
in the directory name `d` it was read from. -/
theorem getFromDataFolder_splits_at_last_dash (keyspace d : String) (hdash : '-' ∈ d.data) :
    ∃ n i, sliceTo d (LastIndex d '-') = .ok n ∧ sliceFrom d (LastIndex d '-' + 1) = .ok i ∧
      n ++ "-" ++ i = d ∧ '-' ∉ i.data ∧
      (∀ (rest : List FileInfo) (schema : Schema), firstIsNot d '.' = .ok true →
        columnFamilyLoop keyspace (⟨d, true⟩ :: rest) schema =
          columnFamilyLoop keyspace rest (schema ++ [⟨keyspace, n, i⟩])) ∧
      (∀ env : Env, entryPath env ⟨keyspace, n, i⟩ = pathJoin env.dataFolder [keyspace, d]) := by
  have hsplit := leafEntity_split keyspace d hdash
  refine ⟨(leafEntity keyspace d).ColumnFamily, (leafEntity keyspace d).ColumnFamilyID,
    hsplit.1, hsplit.2.1, hsplit.2.2.1, hsplit.2.2.2.1, ?_, ?_⟩
  · intro rest schema hfirst
    conv_lhs => unfold columnFamilyLoop
    simp only [if_true, hfirst, hsplit.1, hsplit.2.1]
  · intro env
    unfold entryPath
    rw [hsplit.2.2.1]

/-- C4 at `my.table-abc123`: name `my.table`, identifier `abc123`. -/
theorem getFromDataFolder_splits_at_last_dash_witness :
    (∃ n i, sliceTo "my.table-abc123" (LastIndex "my.table-abc123" '-') = .ok n ∧
      sliceFrom "my.table-abc123" (LastIndex "my.table-abc123" '-' + 1) = .ok i ∧
      n ++ "-" ++ i = "my.table-abc123" ∧ '-' ∉ i.data ∧
      (∀ (rest : List FileInfo) (schema : Schema), firstIsNot "my.table-abc123" '.' = .ok true →
        columnFamilyLoop "ks1" (⟨"my.table-abc123", true⟩ :: rest) schema =
          columnFamilyLoop "ks1" rest (schema ++ [⟨"ks1", n, i⟩])) ∧
      (∀ env : Env, entryPath env ⟨"ks1", n, i⟩ =
        pathJoin env.dataFolder ["ks1", "my.table-abc123"])) ∧
    getFromDataFolder (.dir [("ks1", .dir [("my.table-abc123", .dir [])])]) [] =
      .ok [⟨"ks1", "my.table", "abc123"⟩] :=
  ⟨getFromDataFolder_splits_at_last_dash "ks1" "my.table-abc123" (by decide), by decide⟩

/-! ## Facts about the file-system calls -/

theorem lookupEntry_eraseEntry (es : List (String × Node)) (c c' : String) :
    lookupEntry (eraseEntry es c) c' = if c = c' then none else lookupEntry es c' := by
  induction es with
  | nil => simp [eraseEntry, lookupEntry]
  | cons p rest ih =>
    obtain ⟨k, v⟩ := p
    unfold eraseEntry at ih ⊢
    by_cases hk : k = c
    · subst hk
      by_cases hc : k = c'
      · subst hc
        simpa [List.filter_cons] using ih
      · simp [List.filter_cons, lookupEntry, hc, ih]
    · by_cases hc : c = c'
      · subst hc
        simp [List.filter_cons, hk, lookupEntry, ih]
      · by_cases hkc : k = c'
        · subst hkc
          simp [List.filter_cons, hk, lookupEntry, hc]
        · simp [List.filter_cons, hk, lookupEntry, hkc, ih, hc]

theorem lookupEntry_putEntry (es : List (String × Node)) (c c' : String) (n : Node) :
    lookupEntry (putEntry es c n) c' = if c = c' then some n else lookupEntry es c' := by
  unfold putEntry
  by_cases hc : c = c'
  · simp [lookupEntry, hc]
  · simp [lookupEntry, hc, lookupEntry_eraseEntry]

theorem stat_append (fs : Node) (p q : Path) :
    Node.stat fs (p ++ q) =
      match Node.stat fs p with
      | .ok n => Node.stat n q
      | .error e => .error e := by
  induction p generalizing fs with
  | nil => simp [Node.stat]
  | cons c cs ih =>
    cases fs with
    | file content => simp [Node.stat]
    | dir es =>
      simp only [List.cons_append, Node.stat]
      cases lookupEntry es c with
      | none => rfl
      | some n => exact ih n

theorem stat_child (fs : Node) (p : Path) (es : List (String × Node)) (c : String)
    (h : Node.stat fs p = .ok (.dir es)) :
    Node.stat fs (p ++ [c]) =
      match lookupEntry es c with
      | some n => .ok n
      | none => .error .ENOENT := by
  rw [stat_append, h]
  simp only [Node.stat]
  cases lookupEntry es c <;> rfl

theorem stat_below (fs fs' : Node) (p q : Path) (h : Node.stat fs' p = Node.stat fs p) :
    Node.stat fs' (p ++ q) = Node.stat fs (p ++ q) := by
  rw [stat_append, stat_append, h]

theorem modifyAt_spec (f : Node → Except Errno Node) (fs : Node) (p : Path) (n n' : Node)
    (hstat : Node.stat fs p = .ok n) (hf : f n = .ok n') :
    ∃ fs', Node.modifyAt f fs p = .ok fs' ∧ Node.stat fs' p = .ok n' := by
  induction p generalizing fs with
  | nil =>
    simp only [Node.stat, Except.ok.injEq] at hstat
    subst hstat
    exact ⟨n', by rw [Node.modifyAt]; exact hf, by simp [Node.stat]⟩
  | cons c cs ih =>
    cases fs with
    | file content => simp [Node.stat] at hstat
    | dir es =>
      simp only [Node.stat] at hstat
      cases hl : lookupEntry es c with
      | none => simp [hl] at hstat
      | some m =>
        simp only [hl] at hstat
        obtain ⟨m', hm, hs⟩ := ih m hstat
        refine ⟨.dir (putEntry es c m'), ?_, ?_⟩
        · simp [Node.modifyAt, hl, hm]
        · simp [Node.stat, lookupEntry_putEntry, hs]

theorem apart_symm {p q : Path} (h : Apart p q) : Apart q p := ⟨h.2, h.1⟩

theorem apart_child {p q : Path} (h : Apart p q) (n : String) : Apart (p ++ [n]) q := by
  constructor
  · intro hp
    exact h.1 ((List.prefix_append p [n]).trans hp)
  · intro hq
    rcases List.prefix_or_prefix_of_prefix hq (List.prefix_append p [n]) with h1 | h1
    · exact h.2 h1
    · exact h.1 h1

theorem apart_below {p q : Path} (h : Apart p q) (r : Path) : Apart p (q ++ r) := by
  constructor
  · intro hp
    rcases List.prefix_or_prefix_of_prefix hp (List.prefix_append q r) with h1 | h1
    · exact h.1 h1
    · exact h.2 h1
  · intro hq
    exact h.2 ((List.prefix_append q r).trans hq)

theorem apart_ne_nil {p q : Path} (h : Apart p q) : p ≠ [] := by
  intro hp
  exact h.1 (by rw [hp]; exact List.nil_prefix)

theorem unlinkChild_local (c : String) (n n' : Node) (d : String) (q : Path)
    (h : unlinkChild c n = .ok n') (hd : d ≠ c) :
    Node.stat n' (d :: q) = Node.stat n (d :: q) := by
  cases n with
  | file content => simp [unlinkChild] at h
  | dir es =>
    simp only [unlinkChild, Except.ok.injEq] at h
    subst h
    simp [Node.stat, lookupEntry_eraseEntry, Ne.symm hd]

theorem linkChild_local (c : String) (x : Node) (n n' : Node) (d : String) (q : Path)
    (h : linkChild c x n = .ok n') (hd : d ≠ c) :
    Node.stat n' (d :: q) = Node.stat n (d :: q) := by
  cases n with
  | file content => simp [linkChild] at h
  | dir es =>
    simp only [linkChild, Except.ok.injEq] at h
    subst h
    simp [Node.stat, lookupEntry_putEntry, Ne.symm hd]

/-- A change of the entry `c` of the directory `p` is not seen at a path that is
apart from `p/c`. -/
theorem modifyAt_frame (f : Node → Except Errno Node) (c : String)
    (hf : ∀ (n n' : Node) (d : String) (q : Path), f n = .ok n' → d ≠ c →
      Node.stat n' (d :: q) = Node.stat n (d :: q))
    (p : Path) (fs fs' : Node) (Y : Path)
    (h : Node.modifyAt f fs p = .ok fs') (hap : Apart (p ++ [c]) Y) :
    Node.stat fs' Y = Node.stat fs Y := by
  induction p generalizing fs fs' Y with
  | nil =>
    rw [Node.modifyAt] at h
    cases Y with
    | nil => exact absurd List.nil_prefix hap.2
    | cons d q =>
      have hd : d ≠ c := by
        intro hdc
        apply hap.1
        rw [hdc]
        exact ⟨q, rfl⟩
      exact hf fs fs' d q h hd
  | cons a ps ih =>
    cases fs with
    | file content => simp [Node.modifyAt] at h
    | dir es =>
      simp only [Node.modifyAt] at h
      cases hl : lookupEntry es a with
      | none => simp [hl] at h
      | some m =>
        simp only [hl] at h
        cases hm : Node.modifyAt f m ps with
        | error e => simp [hm] at h
        | ok m' =>
          simp only [hm, Except.ok.injEq] at h
          subst h
          cases Y with
          | nil => exact absurd List.nil_prefix hap.2
          | cons d q =>
            by_cases hda : d = a
            · subst hda
              have hap' : Apart (ps ++ [c]) q := by
                constructor
                · intro hp
                  exact hap.1 (by
                    rw [List.cons_append, List.cons_prefix_cons]
                    exact ⟨rfl, hp⟩)
                · intro hq
                  exact hap.2 (by
                    rw [List.cons_append, List.cons_prefix_cons]
                    exact ⟨rfl, hq⟩)
              simp only [Node.stat, lookupEntry_putEntry, if_true, hl]
              exact ih m m' q hm hap'
            · simp [Node.stat, lookupEntry_putEntry, Ne.symm hda]

theorem splitLast_append (p : Path) (c : String) : splitLast (p ++ [c]) = some (p, c) := by
  induction p with
  | nil => rfl
  | cons x xs ih =>
    cases xs with
    | nil => rfl
    | cons y ys =>
      simp only [List.cons_append] at ih ⊢
      simp [splitLast, ih]

/-- Removing an entry of a directory: the directory loses that entry, and
nothing changes at a path apart from the entry. -/
theorem RemoveAll_child (fs : Node) (p : Path) (S : List (String × Node)) (c : String) (x : Node)
    (hdir : Node.stat fs p = .ok (.dir S)) (hc : lookupEntry S c = some x) :
    ∃ fs', RemoveAll fs (p ++ [c]) = .ok fs' ∧
      Node.stat fs' p = .ok (.dir (eraseEntry S c)) ∧
      (∀ Y, Apart (p ++ [c]) Y → Node.stat fs' Y = Node.stat fs Y) := by
  obtain ⟨fs', hm, hs⟩ := modifyAt_spec (unlinkChild c) fs p (.dir S) (.dir (eraseEntry S c))
    hdir rfl
  refine ⟨fs', ?_, hs, ?_⟩
  · unfold RemoveAll
    rw [splitLast_append, stat_child fs p S c hdir, hc]
    exact hm
  · intro Y hY
    exact modifyAt_frame _ c (unlinkChild_local c) p fs fs' Y hm hY

/-- Moving an entry from the directory `F` to a directory `T` apart from it,
where the name is free. -/
theorem Rename_apart (fs : Node) (F T : Path) (n : String) (S D : List (String × Node))
    (x : Node) (hap : Apart F T)
    (hS : Node.stat fs F = .ok (.dir S)) (hD : Node.stat fs T = .ok (.dir D))
    (hx : lookupEntry S n = some x) (hfree : lookupEntry D n = none) :
    ∃ fs', Rename fs (F ++ [n]) (T ++ [n]) = .ok fs' ∧
      Node.stat fs' F = .ok (.dir (eraseEntry S n)) ∧
      Node.stat fs' T = .ok (.dir (putEntry D n x)) := by
  obtain ⟨fs1, hm1, hs1⟩ := modifyAt_spec (unlinkChild n) fs F (.dir S)
    (.dir (eraseEntry S n)) hS rfl
  have hD1 : Node.stat fs1 T = .ok (.dir D) := by
    rw [modifyAt_frame _ n (unlinkChild_local n) F fs fs1 T hm1 (apart_child hap n), hD]
  obtain ⟨fs2, hm2, hs2⟩ := modifyAt_spec (linkChild n x) fs1 T (.dir D)
    (.dir (putEntry D n x)) hD1 rfl
  have hS2 : Node.stat fs2 F = .ok (.dir (eraseEntry S n)) := by
    rw [modifyAt_frame _ n (linkChild_local n x) T fs1 fs2 F hm2
      (apart_child (apart_symm hap) n), hs1]
  refine ⟨fs2, ?_, hS2, hs2⟩
  have hne : F ++ [n] ≠ T ++ [n] := by
    intro h
    have hFT : F = T := List.append_cancel_right h
    exact hap.1 (by rw [hFT])
  have hnp : ¬ (F ++ [n] <+: T ++ [n]) := by
    intro h
    rcases List.prefix_or_prefix_of_prefix h (List.prefix_append T [n]) with h1 | h1
    · exact (apart_child hap n).1 h1
    · exact (apart_child hap n).2 h1
  unfold Rename
  rw [splitLast_append, splitLast_append, stat_child fs _ S n hS, hx]
  simp only [hne, if_false, hnp]
  rw [stat_child fs _ D n hD, hfree]
  simp only [hm1, hm2]

theorem mem_keys_iff (es : List (String × Node)) (n : String) :
    n ∈ es.map Prod.fst ↔ lookupEntry es n ≠ none := by
  induction es with
  | nil => simp [lookupEntry]
  | cons p rest ih =>
    obtain ⟨k, v⟩ := p
    by_cases hk : k = n
    · simp [lookupEntry, hk]
    · simp only [List.map_cons, List.mem_cons, lookupEntry, hk, if_false, ← ih]
      constructor
      · rintro (h | h)
        · exact absurd h.symm hk
        · exact h
      · exact Or.inr

theorem mem_entryNames (es : List (String × Node)) (n : String) :
    n ∈ entryNames es ↔ lookupEntry es n ≠ none := by
  unfold entryNames
  rw [(List.perm_insertionSort _ _).mem_iff, List.mem_dedup, mem_keys_iff]

theorem ReadDir_of_dir (fs : Node) (p : Path) (es : List (String × Node))
    (h : Node.stat fs p = .ok (.dir es)) :
    ∃ files, ReadDir fs p = .ok files ∧ files.map FileInfo.Name = entryNames es ∧
      (∀ f ∈ files, f.IsDir = true ↔ ∃ sub, lookupEntry es f.Name = some (.dir sub)) := by
  refine ⟨_, by unfold ReadDir; rw [h], ?_, ?_⟩
  · simp [Function.comp_def]
  · intro f hf
    simp only [List.mem_map] at hf
    obtain ⟨n, _, rfl⟩ := hf
    dsimp only
    cases hl : lookupEntry es n with
    | none => simp
    | some x =>
      cases x with
      | file c => simp [Node.isDir]
      | dir sub => simp [Node.isDir]

theorem stat_parent (fs : Node) (P : Path) (a : String) (n : Node)
    (h : Node.stat fs (P ++ [a]) = .ok n) :
    ∃ E, Node.stat fs P = .ok (.dir E) ∧ lookupEntry E a = some n := by
  rw [stat_append] at h
  cases hP : Node.stat fs P with
  | error e => simp [hP] at h
  | ok m =>
    simp only [hP] at h
    cases m with
    | file c => simp [Node.stat] at h
    | dir E =>
      refine ⟨E, rfl, ?_⟩
      simp only [Node.stat] at h
      cases hl : lookupEntry E a with
      | none => simp [hl] at h
      | some x =>
        simp only [hl, Except.ok.injEq] at h
        rw [h]

/-! ## Facts about `path.Join` -/

theorem splitChars_of_not_mem (sep : Char) (l : List Char) (h : sep ∉ l) :
    splitChars sep l = [l] := by
  induction l with
  | nil => rfl
  | cons c cs ih =>
    have hc : c ≠ sep := fun hc => h (by simp [hc])
    have hcs : sep ∉ cs := fun hcs => h (by simp [hcs])
    simp [splitChars, hc, ih hcs]

theorem Split_of_plain (n : String) (h : '/' ∉ n.data) : Split n '/' = [n] := by
  unfold Split
  rw [splitChars_of_not_mem _ _ h]
  rfl

theorem cleanPath_of_clean (l : List String) (acc : Path) (h : ∀ c ∈ l, CleanName c) :
    cleanPath l acc = acc ++ l := by
  induction l generalizing acc with
  | nil => simp [cleanPath]
  | cons c cs ih =>
    obtain ⟨h1, h2, h3⟩ := h c (List.mem_cons_self _ _)
    simp [cleanPath, h1, h2, h3, ih _ (fun x hx => h x (List.mem_cons_of_mem _ hx))]

theorem cleanPath_clean (l : List String) (acc : Path) (hacc : ∀ c ∈ acc, CleanName c) :
    ∀ c ∈ cleanPath l acc, CleanName c := by
  induction l generalizing acc with
  | nil => simpa [cleanPath] using hacc
  | cons x xs ih =>
    unfold cleanPath
    split
    · exact ih acc hacc
    · split
      · exact ih _ (fun c hc => hacc c (List.mem_of_mem_dropLast hc))
      · rename_i h1 h2
        apply ih
        intro c hc
        rcases List.mem_append.1 hc with h | h
        · exact hacc c h
        · simp only [List.mem_singleton] at h
          subst h
          simp only [not_or] at h1
          exact ⟨h1.1, h1.2, h2⟩

/-- The paths `path.Join` returns are clean. -/
theorem pathJoin_clean (dir : Path) (elems : List String) :
    ∀ c ∈ pathJoin dir elems, CleanName c :=
  cleanPath_clean _ [] (by simp)

/-- Joining file names to a clean directory appends them. -/
theorem pathJoin_of_plain (dir : Path) (elems : List String) (hdir : ∀ c ∈ dir, CleanName c)
    (helems : ∀ n ∈ elems, PlainName n) : pathJoin dir elems = dir ++ elems := by
  have hflat : elems.flatMap (fun e => Split e '/') = elems := by
    induction elems with
    | nil => rfl
    | cons n rest ih =>
      rw [List.flatMap_cons, Split_of_plain n (helems n (List.mem_cons_self _ _)).2,
        ih (fun x hx => helems x (List.mem_cons_of_mem _ hx))]
      rfl
  unfold pathJoin
  rw [hflat, cleanPath_of_clean, List.nil_append]
  intro c hc
  rcases List.mem_append.1 hc with h | h
  · exact hdir c h
  · exact (helems c h).1

theorem pathJoin_child (F : Path) (n : String) (hF : ∀ c ∈ F, CleanName c) (hn : PlainName n) :
    pathJoin F [n] = F ++ [n] :=
  pathJoin_of_plain F [n] hF (by simpa using hn)

theorem plain_snapshots : PlainName "snapshots" := by decide

/-! ## The confirmed move, stage by stage -/

/-- The loop over the files of the old directory `F`, seen on the entries of `F`
and of a directory `T` apart from it: it ends normally when every file listed
is still in the old directory or already in the new one. -/
theorem moveFilesLoop_sim (F T : Path) (hap : Apart F T) (hF : ∀ c ∈ F, CleanName c)
    (hT : ∀ c ∈ T, CleanName c) (files : List FileInfo)
    (w : World) (S D : List (String × Node))
    (hS : Node.stat w.fs F = .ok (.dir S))
    (hD : Node.stat w.fs T = .ok (.dir D))
    (hplain : ∀ f ∈ files, PlainName f.Name)
    (hmem : ∀ f ∈ files, lookupEntry S f.Name ≠ none ∨ lookupEntry D f.Name ≠ none) :
    ∃ w', moveFilesLoop F T files w = .done w' ∧ w'.stdin = w.stdin ∧
      Node.stat w'.fs F = .ok (.dir (moveEntries (files.map FileInfo.Name) (S, D)).1) ∧
      Node.stat w'.fs T = .ok (.dir (moveEntries (files.map FileInfo.Name) (S, D)).2) ∧
      refreshCalls w'.out = refreshCalls w.out ∧
      (∀ ev ∈ w.out, ev ∈ w'.out) ∧
      (∀ f ∈ files, lookupEntry D f.Name ≠ none →
        Event.conflict (T ++ [f.Name]) ∈ w'.out) := by
  induction files generalizing w S D with
  | nil => exact ⟨w, rfl, rfl, hS, hD, rfl, fun _ h => h, fun _ h => by cases h⟩
  | cons f rest ih =>
    have hplainr : ∀ g ∈ rest, PlainName g.Name :=
      fun g hg => hplain g (List.mem_cons_of_mem _ hg)
    unfold moveFilesLoop
    dsimp only
    rw [pathJoin_child F f.Name hF (hplain f (List.mem_cons_self _ _)),
      pathJoin_child T f.Name hT (hplain f (List.mem_cons_self _ _))]
    have hstatD := stat_child w.fs T D f.Name hD
    cases hDf : lookupEntry D f.Name with
    | some y =>
      rw [hDf] at hstatD
      have hrest : ∀ g ∈ rest, lookupEntry S g.Name ≠ none ∨ lookupEntry D g.Name ≠ none :=
        fun g hg => hmem g (List.mem_cons_of_mem _ hg)
      obtain ⟨w', hrun, hin, hS', hD', hrc, hmono, hconf⟩ :=
        ih (w.print (.conflict (T ++ [f.Name]))) S D hS hD hplainr hrest
      refine ⟨w', ?_, hin, ?_, ?_, ?_, ?_, ?_⟩
      · simp only [FilepathExists, hstatD, if_true]
        exact hrun
      · simpa [moveEntries, hDf] using hS'
      · simpa [moveEntries, hDf] using hD'
      · rw [hrc]
        simp [World.print, refreshCalls_append, refreshCalls]
      · intro ev hev
        exact hmono ev (by simp [World.print, hev])
      · intro g hg hgD
        rcases List.mem_cons.1 hg with h | h
        · subst h
          exact hmono _ (by simp [World.print])
        · exact hconf g h hgD
    | none =>
      rw [hDf] at hstatD
      have hSf : lookupEntry S f.Name ≠ none := by
        rcases hmem f (List.mem_cons_self _ _) with h | h
        · exact h
        · exact absurd hDf h
      obtain ⟨x, hx⟩ := Option.ne_none_iff_exists'.1 hSf
      obtain ⟨fs', hren, hS1, hD1⟩ := Rename_apart w.fs F T f.Name S D x hap hS hD hx hDf
      have hrest : ∀ g ∈ rest, lookupEntry (eraseEntry S f.Name) g.Name ≠ none ∨
          lookupEntry (putEntry D f.Name x) g.Name ≠ none := by
        intro g hg
        rw [lookupEntry_eraseEntry, lookupEntry_putEntry]
        by_cases hfg : f.Name = g.Name
        · simp [hfg]
        · simpa [hfg] using hmem g (List.mem_cons_of_mem _ hg)
      obtain ⟨w', hrun, hin, hS', hD', hrc, hmono, hconf⟩ :=
        ih { w with fs := fs' } (eraseEntry S f.Name) (putEntry D f.Name x) hS1 hD1 hplainr hrest
      refine ⟨w', ?_, hin, ?_, ?_, hrc, hmono, ?_⟩
      · simp only [FilepathExists, hstatD, Bool.false_eq_true, if_false, hren]
        exact hrun
      · simpa [moveEntries, hDf, hx] using hS'
      · simpa [moveEntries, hDf, hx] using hD'
      · intro g hg hgD
        rcases List.mem_cons.1 hg with h | h
        · subst h
          exact absurd hDf hgD
        · apply hconf g h
          rw [lookupEntry_putEntry]
          by_cases hfg : f.Name = g.Name
          · simp [hfg]
          · simpa [hfg] using hgD

/-- The entries of the two directories after the loop, name by name. -/
theorem moveEntries_lookup (names : List String) (S D : List (String × Node)) (n : String) :
    lookupEntry (moveEntries names (S, D)).1 n =
      (if n ∈ names ∧ lookupEntry D n = none then none else lookupEntry S n) ∧
    lookupEntry (moveEntries names (S, D)).2 n =
      (if n ∈ names ∧ lookupEntry D n = none then lookupEntry S n else lookupEntry D n) := by
  induction names generalizing S D with
  | nil => simp [moveEntries]
  | cons m rest ih =>
    unfold moveEntries
    cases hD : lookupEntry D m with
    | some y =>
      simp only []
      rw [(ih S D).1, (ih S D).2]
      by_cases hmn : n = m
      · subst hmn
        simp [hD]
      · simp [hmn]
    | none =>
      cases hS : lookupEntry S m with
      | none =>
        simp only []
        rw [(ih S D).1, (ih S D).2]
        by_cases hmn : n = m
        · subst hmn
          simp [hD, hS]
        · simp [hmn]
      | some x =>
        simp only []
        rw [(ih _ _).1, (ih _ _).2, lookupEntry_eraseEntry, lookupEntry_putEntry]
        by_cases hmn : n = m
        · subst hmn
          simp [hD, hS]
        · have hmn' : m ≠ n := fun h => hmn h.symm
          simp [hmn, hmn']

theorem removeIfEmpty_nonempty (p : Path) (w : World) (S : List (String × Node)) (n : String)
    (hS : Node.stat w.fs p = .ok (.dir S)) (hn : lookupEntry S n ≠ none) :
    removeIfEmpty p w = .done w := by
  obtain ⟨files, hread, hnames, _⟩ := ReadDir_of_dir w.fs p S hS
  have hmem : n ∈ files.map FileInfo.Name := by
    rw [hnames]
    exact (mem_entryNames S n).2 hn
  have hlen : files.length ≠ 0 := by
    intro h
    rw [List.length_eq_zero] at h
    rw [h] at hmem
    cases hmem
  unfold removeIfEmpty
  rw [hread]
  simp [hlen]

theorem dirName_ne (cf id v : String) (h : v ≠ id) : cf ++ "-" ++ id ≠ cf ++ "-" ++ v := by
  intro heq
  apply h
  have := congrArg String.data heq
  simp only [String.data_append, List.append_assoc] at this
  have := List.append_cancel_left (List.append_cancel_left this)
  exact (String.ext this).symm

theorem stat_child_ok_iff (fs : Node) (p : Path) (es : List (String × Node)) (c : String)
    (x : Node) (h : Node.stat fs p = .ok (.dir es)) :
    Node.stat fs (p ++ [c]) = .ok x ↔ lookupEntry es c = some x := by
  rw [stat_child fs p es c h]
  cases lookupEntry es c <;> simp

theorem stat_child_enoent_iff (fs : Node) (p : Path) (es : List (String × Node)) (c : String)
    (h : Node.stat fs p = .ok (.dir es)) :
    Node.stat fs (p ++ [c]) = .error .ENOENT ↔ lookupEntry es c = none := by
  rw [stat_child fs p es c h]
  cases lookupEntry es c <;> simp

theorem runRefresh_calls (env : Env) (e : SchemaEntry) (w : World) :
    refreshCalls (runRefresh env e w).world.out =
      refreshCalls w.out ++ [(e.Keyspace, e.ColumnFamily)] ∧
    (∀ fs2, env.nodetoolRefresh e.Keyspace e.ColumnFamily w.fs = some fs2 →
      runRefresh env e w =
        .done { fs := fs2, stdin := w.stdin,
                out := w.out ++ [.refresh e.Keyspace e.ColumnFamily] }) ∧
    (env.nodetoolRefresh e.Keyspace e.ColumnFamily w.fs = none →
      runRefresh env e w =
        .exit (w.print (.refresh e.Keyspace e.ColumnFamily)) "nodetool refresh failed") := by
  unfold runRefresh
  dsimp only
  refine ⟨?_, ?_, ?_⟩
  · split <;> simp [Run.world, World.print, refreshCalls_append, refreshCalls]
  · intro fs2 h
    simp [World.print, h]
  · intro h
    simp [World.print, h]

theorem runRefresh_world_fs (env : Env) (e : SchemaEntry) (w : World)
    (hhook : ∀ fs fs2, env.nodetoolRefresh e.Keyspace e.ColumnFamily fs = some fs2 → fs2 = fs) :
    (runRefresh env e w).world.fs = w.fs := by
  unfold runRefresh
  dsimp only
  cases h : env.nodetoolRefresh e.Keyspace e.ColumnFamily
      (w.print (.refresh e.Keyspace e.ColumnFamily)).fs with
  | none => rfl
  | some fs2 => exact hhook _ _ h

theorem removeSnapshots_spec (F : Path) (hF : ∀ c ∈ F, CleanName c) (w : World)
    (S : List (String × Node)) (hS : Node.stat w.fs F = .ok (.dir S)) :
    ∃ w1 S0, removeSnapshots F w = .done w1 ∧ w1.stdin = w.stdin ∧
      Node.stat w1.fs F = .ok (.dir S0) ∧
      (∀ n, lookupEntry S0 n = if n = "snapshots" then none else lookupEntry S n) ∧
      (∀ Y, Apart (F ++ ["snapshots"]) Y → Node.stat w1.fs Y = Node.stat w.fs Y) ∧
      refreshCalls w1.out = refreshCalls w.out ∧ (∀ ev ∈ w.out, ev ∈ w1.out) := by
  unfold removeSnapshots
  dsimp only
  rw [pathJoin_child F "snapshots" hF plain_snapshots]
  have hstat := stat_child w.fs F S "snapshots" hS
  cases hsnap : lookupEntry S "snapshots" with
  | none =>
    rw [hsnap] at hstat
    refine ⟨w, S, ?_, rfl, hS, ?_, fun _ _ => rfl, rfl, fun _ h => h⟩
    · simp only [FilepathExists, hstat, Bool.false_eq_true, if_false]
    · intro n
      by_cases hn : n = "snapshots"
      · simp [hn, hsnap]
      · simp [hn]
  | some x =>
    rw [hsnap] at hstat
    obtain ⟨fs', hrm, hS', hframe⟩ := RemoveAll_child w.fs F S "snapshots" x hS hsnap
    refine ⟨{ w.print (.removingSnapshots (F ++ ["snapshots"])) with fs := fs' },
      eraseEntry S "snapshots", ?_, rfl, hS', ?_, hframe, ?_, ?_⟩
    · simp only [FilepathExists, hstat, if_true, World.print, hrm]
    · intro n
      rw [lookupEntry_eraseEntry]
      by_cases hn : n = "snapshots"
      · simp [hn]
      · have hn' : "snapshots" ≠ n := fun h => hn h.symm
        simp [hn, hn']
    · simp [World.print, refreshCalls_append, refreshCalls]
    · intro ev hev
      simp [World.print, hev]

theorem removeIfEmpty_empty (F : Path) (hne : F ≠ []) (w : World) (S : List (String × Node))
    (hS : Node.stat w.fs F = .ok (.dir S))
    (hempty : ∀ n, lookupEntry S n = none) :
    ∃ fs', removeIfEmpty F w = .done { w with fs := fs' } ∧
      Node.stat fs' F = .error .ENOENT ∧
      (∀ Y, Apart F Y → Node.stat fs' Y = Node.stat w.fs Y) := by
  obtain ⟨files, hread, hnames, _⟩ := ReadDir_of_dir w.fs F S hS
  have hnil : entryNames S = [] := by
    rw [List.eq_nil_iff_forall_not_mem]
    intro n hn
    exact (mem_entryNames S n).1 hn (hempty n)
  have hfiles : files = [] := by
    rw [hnil] at hnames
    exact List.map_eq_nil_iff.1 hnames
  obtain ⟨parent, base, hFeq⟩ := (List.eq_nil_or_concat F).resolve_left hne
  rw [List.concat_eq_append] at hFeq
  subst hFeq
  obtain ⟨E, hP, ha⟩ := stat_parent w.fs parent base (.dir S) hS
  obtain ⟨fs', hrm, hP', hframe⟩ := RemoveAll_child w.fs parent E base (.dir S) hP ha
  refine ⟨fs', ?_, ?_, hframe⟩
  · unfold removeIfEmpty
    rw [hread, hfiles]
    simp [hrm]
  · rw [stat_child fs' parent _ base hP', lookupEntry_eraseEntry]
    simp

/-- The confirmed move from the directory `F` to a directory `T` apart from
it: the file operations end normally and the refresh command is reached, in a
state described entry by entry. -/
theorem migrate_spec (env : Env) (e : SchemaEntry) (F T : Path) (hap : Apart F T)
    (hF : ∀ c ∈ F, CleanName c) (hT : ∀ c ∈ T, CleanName c)
    (w : World) (S D : List (String × Node))
    (hS : Node.stat w.fs F = .ok (.dir S))
    (hD : Node.stat w.fs T = .ok (.dir D))
    (hplain : ∀ n, lookupEntry S n ≠ none → PlainName n) :
    ∃ w1 D' S', migrate env e F T w = runRefresh env e w1 ∧
      w1.stdin = w.stdin ∧ refreshCalls w1.out = refreshCalls w.out ∧
      Node.stat w1.fs T = .ok (.dir D') ∧
      (∀ n, lookupEntry D' n =
        if n ≠ "snapshots" ∧ lookupEntry S n ≠ none ∧ lookupEntry D n = none
        then lookupEntry S n else lookupEntry D n) ∧
      (∀ n, n ≠ "snapshots" → lookupEntry S n ≠ none → lookupEntry D n ≠ none →
        Event.conflict (T ++ [n]) ∈ w1.out) ∧
      ((∀ n, n ≠ "snapshots" → lookupEntry S n ≠ none → lookupEntry D n = none) →
        Node.stat w1.fs F = .error .ENOENT) ∧
      ((∃ n, n ≠ "snapshots" ∧ lookupEntry S n ≠ none ∧ lookupEntry D n ≠ none) →
        Node.stat w1.fs F = .ok (.dir S')) ∧
      (∀ n, lookupEntry S' n =
        if n = "snapshots" ∨ lookupEntry D n = none then none else lookupEntry S n) := by
  obtain ⟨w1, S0, hrun1, hin1, hS1, hS0, hframe1, hrc1, hmono1⟩ :=
    removeSnapshots_spec F hF (w.print (.moving F T)) S hS
  have hD1 : Node.stat w1.fs T = .ok (.dir D) := by
    rw [hframe1 T (apart_child hap "snapshots")]
    exact hD
  obtain ⟨files, hread, hnames, _⟩ := ReadDir_of_dir w1.fs F S0 hS1
  have hin : ∀ n, n ∈ entryNames S0 ↔ n ≠ "snapshots" ∧ lookupEntry S n ≠ none := by
    intro n
    rw [mem_entryNames, hS0]
    by_cases hn : n = "snapshots" <;> simp [hn]
  have hfin : ∀ f ∈ files, f.Name ∈ entryNames S0 := by
    intro f hf
    rw [← hnames]
    exact List.mem_map_of_mem _ hf
  have hmem : ∀ f ∈ files, lookupEntry S0 f.Name ≠ none ∨ lookupEntry D f.Name ≠ none :=
    fun f hf => Or.inl ((mem_entryNames S0 f.Name).1 (hfin f hf))
  have hpl : ∀ f ∈ files, PlainName f.Name :=
    fun f hf => hplain f.Name ((hin f.Name).1 (hfin f hf)).2
  obtain ⟨w2, hrun2, hin2, hS2, hD2, hrc2, hmono2, hconf2⟩ :=
    moveFilesLoop_sim F T hap hF hT files w1 S0 D hS1 hD1 hpl hmem
  rw [hnames] at hS2 hD2
  have hS' := fun n => (moveEntries_lookup (entryNames S0) S0 D n).1
  have hD' := fun n => (moveEntries_lookup (entryNames S0) S0 D n).2
  have hDfinal : ∀ n, lookupEntry (moveEntries (entryNames S0) (S0, D)).2 n =
      if n ≠ "snapshots" ∧ lookupEntry S n ≠ none ∧ lookupEntry D n = none
      then lookupEntry S n else lookupEntry D n := by
    intro n
    simp only [hD', hin, hS0]
    by_cases hn : n = "snapshots"
    · simp [hn]
    · simp only [hn, if_false, ne_eq, not_false_eq_true, true_and, and_assoc]
  have hSfinal : ∀ n, lookupEntry (moveEntries (entryNames S0) (S0, D)).1 n =
      if n = "snapshots" ∨ lookupEntry D n = none then none else lookupEntry S n := by
    intro n
    simp only [hS', hin, hS0]
    by_cases hn : n = "snapshots"
    · simp [hn]
    · by_cases hDn : lookupEntry D n = none
      · by_cases hSn : lookupEntry S n = none <;> simp [hn, hDn, hSn]
      · simp [hn, hDn]
  have hmig : migrate env e F T w = (removeIfEmpty F w2).andThen (runRefresh env e) := by
    unfold migrate moveFiles
    rw [hrun1]
    simp only [Run.andThen, hread, hrun2]
  have hrcw : refreshCalls w2.out = refreshCalls w.out := by
    rw [hrc2, hrc1]
    simp [World.print, refreshCalls_append, refreshCalls]
  have hconf : ∀ n, n ≠ "snapshots" → lookupEntry S n ≠ none → lookupEntry D n ≠ none →
      Event.conflict (T ++ [n]) ∈ w2.out := by
    intro n hn hSn hDn
    have hmemn : n ∈ files.map FileInfo.Name := by
      rw [hnames, hin]
      exact ⟨hn, hSn⟩
    obtain ⟨f, hf, hfn⟩ := List.mem_map.1 hmemn
    have := hconf2 f hf (by rw [hfn]; exact hDn)
    rw [hfn] at this
    exact this
  by_cases hall : ∀ n, n ≠ "snapshots" → lookupEntry S n ≠ none → lookupEntry D n = none
  · have hempty : ∀ n, lookupEntry (moveEntries (entryNames S0) (S0, D)).1 n = none := by
      intro n
      rw [hSfinal]
      by_cases hn : n = "snapshots"
      · simp [hn]
      · by_cases hSn : lookupEntry S n = none
        · simp [hSn]
        · simp [hall n hn hSn]
    obtain ⟨fs3, hrun3, hgone, hframe⟩ :=
      removeIfEmpty_empty F (apart_ne_nil hap) w2 _ hS2 hempty
    refine ⟨{ w2 with fs := fs3 }, (moveEntries (entryNames S0) (S0, D)).2,
      (moveEntries (entryNames S0) (S0, D)).1, ?_, ?_, hrcw, ?_,
      hDfinal, hconf, fun _ => hgone, ?_, hSfinal⟩
    · rw [hmig, hrun3]
      rfl
    · show w2.stdin = w.stdin
      rw [hin2, hin1]
      rfl
    · show Node.stat fs3 T = _
      rw [hframe T hap]
      exact hD2
    · rintro ⟨n, hn, hSn, hDn⟩
      exact absurd (hall n hn hSn) hDn
  · have hex : ∃ n, n ≠ "snapshots" ∧ lookupEntry S n ≠ none ∧ lookupEntry D n ≠ none := by
      by_contra hcon
      apply hall
      intro n hn hSn
      by_contra hDn
      exact hcon ⟨n, hn, hSn, hDn⟩
    obtain ⟨c, hc, hSc, hDc⟩ := hex
    have hleft : lookupEntry (moveEntries (entryNames S0) (S0, D)).1 c ≠ none := by
      rw [hSfinal]
      simp [hc, hDc, hSc]
    have hrun3 := removeIfEmpty_nonempty F w2 _ c hS2 hleft
    refine ⟨w2, (moveEntries (entryNames S0) (S0, D)).2,
      (moveEntries (entryNames S0) (S0, D)).1, ?_, ?_, hrcw, hD2, hDfinal, hconf,
      ?_, fun _ => hS2, hSfinal⟩
    · rw [hmig, hrun3]
      rfl
    · rw [hin2, hin1]
      rfl
    · intro hall'
      exact absurd (hall' c hc hSc) hDc

/-- The confirmed move from a directory `F` that holds nothing but, at most,
`snapshots`: nothing is moved, whatever is at `T`, and `F` is removed. -/
theorem migrate_nothing_to_move (env : Env) (e : SchemaEntry) (F T : Path) (hne : F ≠ [])
    (hF : ∀ c ∈ F, CleanName c) (w : World) (S : List (String × Node))
    (hS : Node.stat w.fs F = .ok (.dir S))
    (hnone : ∀ n, n ≠ "snapshots" → lookupEntry S n = none) :
    ∃ w1, migrate env e F T w = runRefresh env e w1 ∧
      w1.stdin = w.stdin ∧ refreshCalls w1.out = refreshCalls w.out ∧
      Node.stat w1.fs F = .error .ENOENT ∧
      (∀ Y, Apart F Y → Node.stat w1.fs Y = Node.stat w.fs Y) := by
  obtain ⟨w1, S0, hrun1, hin1, hS1, hS0, hframe1, hrc1, _⟩ :=
    removeSnapshots_spec F hF (w.print (.moving F T)) S hS
  have hempty : ∀ n, lookupEntry S0 n = none := by
    intro n
    rw [hS0]
    by_cases hn : n = "snapshots"
    · simp [hn]
    · simp [hn, hnone n hn]
  obtain ⟨files, hread, hnames, _⟩ := ReadDir_of_dir w1.fs F S0 hS1
  have hnil : entryNames S0 = [] := by
    rw [List.eq_nil_iff_forall_not_mem]
    intro n hn
    exact (mem_entryNames S0 n).1 hn (hempty n)
  have hfiles : files = [] := by
    rw [hnil] at hnames
    exact List.map_eq_nil_iff.1 hnames
  obtain ⟨fs3, hrun3, hgone, hframe3⟩ := removeIfEmpty_empty F hne w1 S0 hS1 hempty
  refine ⟨{ w1 with fs := fs3 }, ?_, ?_, ?_, hgone, ?_⟩
  · unfold migrate moveFiles
    rw [hrun1]
    simp only [Run.andThen, hread, hfiles, moveFilesLoop, hrun3]
  · show w1.stdin = w.stdin
    rw [hin1]
    rfl
  · show refreshCalls w1.out = refreshCalls w.out
    rw [hrc1]
    simp [World.print, refreshCalls_append, refreshCalls]
  · intro Y hY
    show Node.stat fs3 Y = _
    rw [hframe3 Y hY, hframe1 Y (apart_child hY "snapshots")]
    rfl

/-! ## The confirmed move: conflicts (C5) and the complete move (C6) -/

theorem entryPath_clean (env : Env) (e : SchemaEntry) : ∀ c ∈ entryPath env e, CleanName c :=
  pathJoin_clean _ _

theorem targetPath_clean (env : Env) (e : SchemaEntry) (v : String) :
    ∀ c ∈ targetPath env e v, CleanName c :=
  pathJoin_clean _ _

theorem plainName_dir (cf id : String) (hcf : '/' ∉ cf.data) (hid : '/' ∉ id.data) :
    PlainName (cf ++ "-" ++ id) := by
  have hdata : (cf ++ "-" ++ id).data = cf.data ++ '-' :: id.data := by
    simp [String.data_append]
  have hmem : '-' ∈ (cf ++ "-" ++ id).data := by
    rw [hdata]
    simp
  refine ⟨⟨?_, ?_, ?_⟩, ?_⟩
  · intro h
    rw [h] at hmem
    simp at hmem
  · intro h
    rw [h] at hmem
    simp at hmem
  · intro h
    rw [h] at hmem
    simp at hmem
  · rw [hdata]
    simp only [List.mem_append, List.mem_cons, not_or]
    exact ⟨hcf, by decide, hid⟩

/-- When the data folder is given by a clean path and group, name and the two
identifiers are file names, the paths `main` builds are the data folder
followed by the group and the directory name, and the old and the new
directory are apart. -/
theorem entryPath_targetPath_apart (env : Env) (e : SchemaEntry) (fromMap : String)
    (hdf : ∀ c ∈ env.dataFolder, CleanName c) (hks : PlainName e.Keyspace)
    (hcf : '/' ∉ e.ColumnFamily.data) (hid : '/' ∉ e.ColumnFamilyID.data)
    (hfm : '/' ∉ fromMap.data) (hstale : fromMap ≠ e.ColumnFamilyID) :
    entryPath env e =
      env.dataFolder ++ [e.Keyspace, e.ColumnFamily ++ "-" ++ e.ColumnFamilyID] ∧
    targetPath env e fromMap =
      env.dataFolder ++ [e.Keyspace, e.ColumnFamily ++ "-" ++ fromMap] ∧
    Apart (entryPath env e) (targetPath env e fromMap) := by
  have h1 : entryPath env e =
      env.dataFolder ++ [e.Keyspace, e.ColumnFamily ++ "-" ++ e.ColumnFamilyID] := by
    unfold entryPath
    apply pathJoin_of_plain _ _ hdf
    intro n hn
    simp only [List.mem_cons, List.mem_singleton, List.not_mem_nil, or_false] at hn
    rcases hn with h | h
    · rw [h]; exact hks
    · rw [h]; exact plainName_dir _ _ hcf hid
  have h2 : targetPath env e fromMap =
      env.dataFolder ++ [e.Keyspace, e.ColumnFamily ++ "-" ++ fromMap] := by
    unfold targetPath
    apply pathJoin_of_plain _ _ hdf
    intro n hn
    simp only [List.mem_cons, List.mem_singleton, List.not_mem_nil, or_false] at hn
    rcases hn with h | h
    · rw [h]; exact hks
    · rw [h]; exact plainName_dir _ _ hcf hfm
  have hne : env.dataFolder ++ [e.Keyspace, e.ColumnFamily ++ "-" ++ e.ColumnFamilyID] ≠
      env.dataFolder ++ [e.Keyspace, e.ColumnFamily ++ "-" ++ fromMap] := by
    intro h
    have := List.append_cancel_left h
    simp only [List.cons.injEq, and_true, true_and] at this
    exact dirName_ne _ _ _ hstale this
  refine ⟨h1, h2, ?_, ?_⟩
  · rw [h1, h2]
    intro hp
    exact hne (List.IsPrefix.eq_of_length hp (by simp))
  · rw [h1, h2]
    intro hp
    exact hne (List.IsPrefix.eq_of_length hp (by simp)).symm

/-- The path `main` moves to is cleaned by `path.Join`: an identifier with `/`
or `..` in it names a directory elsewhere. -/
theorem targetPath_cleans :
    targetPath ⟨[], true, refreshOk⟩ ⟨"ks1", "cf1", "id1"⟩ "/../.zz" = ["ks1", ".zz"] ∧
    targetPath ⟨["data"], true, refreshOk⟩ ⟨"ks1", "cf1", "id1"⟩ "id1/x" =
      ["data", "ks1", "cf1-id1", "x"] := by
  decide

theorem names_plain_of_entries (fs : Node) (p : Path) (S : List (String × Node))
    (hdir : Node.stat fs p = .ok (.dir S)) (h : ∀ k ∈ S.map Prod.fst, PlainName k) :
    ∀ n z, Node.stat fs (p ++ [n]) = .ok z → PlainName n := by
  intro n z hn
  rw [stat_child_ok_iff fs p S n z hdir] at hn
  exact h n ((mem_keys_iff S n).2 (by simp [hn]))

/-- C5 fails as stated, in three ways.  (1) `snapshots` is an entry directly
under the source directory with the same name as an entry that exists under the
destination directory, and the confirmed move does not leave it under the old
path: it removes the source `snapshots` before it lists the files, and then
removes the source directory, which is empty.  (2) With the declared identifier
`id1/x` the destination `ks1/cf1-id1/x` lies inside the source: the entry `a`
exists under both, it is skipped, and then moving `x` into itself stops the
process, so the refresh command is not run.  (3) The refresh command is an
external program: one that changes the files leaves the destination entry
other than it was when the move ends. -/
theorem migrate_removes_conflicting_snapshots :
    (Node.stat staleFsSnapshots
        (entryPath ⟨[], true, refreshOk⟩ ⟨"ks1", "cf1", "id1"⟩ ++ ["snapshots"])
        = .ok (.dir [("s", .file "old")]) ∧
      Node.stat staleFsSnapshots
        (targetPath ⟨[], true, refreshOk⟩ ⟨"ks1", "cf1", "id1"⟩ "id2" ++ ["snapshots"])
        = .ok (.dir [("t", .file "new")]) ∧
      migrate ⟨[], true, refreshOk⟩ ⟨"ks1", "cf1", "id1"⟩
        (entryPath ⟨[], true, refreshOk⟩ ⟨"ks1", "cf1", "id1"⟩)
        (targetPath ⟨[], true, refreshOk⟩ ⟨"ks1", "cf1", "id1"⟩ "id2")
        ⟨staleFsSnapshots, [], []⟩ =
        .done ⟨.dir [("ks1", .dir [("cf1-id2", .dir [("snapshots", .dir [("t", .file "new")])])])],
          [],
          [.moving ["ks1", "cf1-id1"] ["ks1", "cf1-id2"],
           .removingSnapshots ["ks1", "cf1-id1", "snapshots"],
           .refresh "ks1" "cf1"]⟩ ∧
      Node.stat (.dir [("ks1", .dir [("cf1-id2", .dir [("snapshots", .dir [("t", .file "new")])])])])
        (entryPath ⟨[], true, refreshOk⟩ ⟨"ks1", "cf1", "id1"⟩) = .error .ENOENT) ∧
    (entryPath ⟨[], true, refreshOk⟩ ⟨"ks1", "cf1", "id1"⟩ = ["ks1", "cf1-id1"] ∧
      targetPath ⟨[], true, refreshOk⟩ ⟨"ks1", "cf1", "id1"⟩ "id1/x" = ["ks1", "cf1-id1", "x"] ∧
      Node.stat staleFsNested ["ks1", "cf1-id1", "a"] = .ok (.file "1") ∧
      Node.stat staleFsNested ["ks1", "cf1-id1", "x", "a"] = .ok (.file "2") ∧
      migrate ⟨[], true, refreshOk⟩ ⟨"ks1", "cf1", "id1"⟩
        (entryPath ⟨[], true, refreshOk⟩ ⟨"ks1", "cf1", "id1"⟩)
        (targetPath ⟨[], true, refreshOk⟩ ⟨"ks1", "cf1", "id1"⟩ "id1/x")
        ⟨staleFsNested, [], []⟩ =
        .exit ⟨staleFsNested, [],
          [.moving ["ks1", "cf1-id1"] ["ks1", "cf1-id1", "x"],
           .conflict ["ks1", "cf1-id1", "x", "a"]]⟩ "Can't move file") ∧
    (Node.stat staleFsConflict ["ks1", "cf1-id2", "sstable1"] = .ok (.file "z") ∧
      (migrate ⟨[], true, refreshWipes⟩ ⟨"ks1", "cf1", "id1"⟩
        (entryPath ⟨[], true, refreshWipes⟩ ⟨"ks1", "cf1", "id1"⟩)
        (targetPath ⟨[], true, refreshWipes⟩ ⟨"ks1", "cf1", "id1"⟩ "id2")
        ⟨staleFsConflict, [], []⟩).world.fs = .dir [] ∧
      Node.stat (.dir []) ["ks1", "cf1-id2", "sstable1"] = .error .ENOENT) := by
  decide

/-- C5 as amended: in every file system whose source entries have file names,
and for every confirmed move of a stale entity whose old and new directories
are apart (different, neither inside the other, as they are whenever group,
name and identifiers are file names), an entry other than `snapshots` that is
directly under the source directory and whose name already exists under the
destination directory is neither renamed nor overwritten.  After the file
operations of the move the destination entry is the node it was, the source
entry is still under the old path, the source directory still exists, the
conflict has been reported, every entry other than `snapshots` whose name was
free in the destination has been moved there, the `snapshots` of the source is
removed and that of the destination is what it was; the refresh command is then
run for (group, name), on this state, which is also the state the move ends in
whenever the refresh command leaves the files as they are. -/
theorem migrate_keeps_conflicting_entry (env : Env) (e : SchemaEntry) (fromMap : String)
    (w : World) (c : String) (x y : Node)
    (hstale : fromMap ≠ e.ColumnFamilyID) (hc : c ≠ "snapshots")
    (hapart : Apart (entryPath env e) (targetPath env e fromMap))
    (hnames : ∀ n z, Node.stat w.fs (entryPath env e ++ [n]) = .ok z → PlainName n)
    (hx : Node.stat w.fs (entryPath env e ++ [c]) = .ok x)
    (hy : Node.stat w.fs (targetPath env e fromMap ++ [c]) = .ok y) :
    ∃ w1, migrate env e (entryPath env e) (targetPath env e fromMap) w = runRefresh env e w1 ∧
      Node.stat w1.fs (targetPath env e fromMap ++ [c]) = .ok y ∧
      Node.stat w1.fs (entryPath env e ++ [c]) = .ok x ∧
      (∃ S', Node.stat w1.fs (entryPath env e) = .ok (.dir S')) ∧
      Event.conflict (targetPath env e fromMap ++ [c]) ∈ w1.out ∧
      (∀ n z, n ≠ "snapshots" → Node.stat w.fs (entryPath env e ++ [n]) = .ok z →
        Node.stat w.fs (targetPath env e fromMap ++ [n]) = .error .ENOENT →
        Node.stat w1.fs (targetPath env e fromMap ++ [n]) = .ok z ∧
        Node.stat w1.fs (entryPath env e ++ [n]) = .error .ENOENT) ∧
      Node.stat w1.fs (entryPath env e ++ ["snapshots"]) = .error .ENOENT ∧
      Node.stat w1.fs (targetPath env e fromMap ++ ["snapshots"]) =
        Node.stat w.fs (targetPath env e fromMap ++ ["snapshots"]) ∧
      refreshCalls (migrate env e (entryPath env e) (targetPath env e fromMap) w).world.out =
        refreshCalls w.out ++ [(e.Keyspace, e.ColumnFamily)] ∧
      ((∀ fs fs2, env.nodetoolRefresh e.Keyspace e.ColumnFamily fs = some fs2 → fs2 = fs) →
        (migrate env e (entryPath env e) (targetPath env e fromMap) w).world.fs = w1.fs) := by
  have _hstale := hstale
  obtain ⟨S, hS, hxS⟩ := stat_parent w.fs (entryPath env e) c x hx
  obtain ⟨D, hD, hyD⟩ := stat_parent w.fs (targetPath env e fromMap) c y hy
  have hplain : ∀ n, lookupEntry S n ≠ none → PlainName n := by
    intro n hn
    obtain ⟨z, hz⟩ := Option.ne_none_iff_exists'.1 hn
    exact hnames n z ((stat_child_ok_iff _ _ _ _ _ hS).2 hz)
  obtain ⟨w1, D', S', hmig, _, hrc, hD1, hDl, hconf, _, hkeep, hSl⟩ :=
    migrate_spec env e _ _ hapart (entryPath_clean env e) (targetPath_clean env e fromMap)
      w S D hS hD hplain
  have hS1 := hkeep ⟨c, hc, by simp [hxS], by simp [hyD]⟩
  refine ⟨w1, hmig, ?_, ?_, ⟨S', hS1⟩, ?_, ?_, ?_, ?_, ?_, ?_⟩
  · rw [stat_child_ok_iff _ _ _ _ _ hD1, hDl]
    simp [hyD]
  · rw [stat_child_ok_iff _ _ _ _ _ hS1, hSl]
    simp [hc, hyD, hxS]
  · exact hconf c hc (by simp [hxS]) (by simp [hyD])
  · intro n z hn hnS hnD
    rw [stat_child_ok_iff _ _ _ _ _ hS] at hnS
    rw [stat_child_enoent_iff _ _ _ _ hD] at hnD
    constructor
    · rw [stat_child_ok_iff _ _ _ _ _ hD1, hDl]
      simp [hn, hnS, hnD]
    · rw [stat_child_enoent_iff _ _ _ _ hS1, hSl]
      simp [hnD]
  · rw [stat_child_enoent_iff _ _ _ _ hS1, hSl]
    simp
  · rw [stat_child _ _ _ _ hD1, stat_child _ _ _ _ hD, hDl]
    simp
  · rw [hmig, (runRefresh_calls env e w1).1, hrc]
  · intro hhook
    rw [hmig, runRefresh_world_fs env e w1 hhook]

/-- C5 as amended, at `sstable1` present in both directories and `other` only
in the old one. -/
theorem migrate_keeps_conflicting_entry_witness :
    ∃ w1, migrate ⟨[], true, refreshOk⟩ ⟨"ks1", "cf1", "id1"⟩
        (entryPath ⟨[], true, refreshOk⟩ ⟨"ks1", "cf1", "id1"⟩)
        (targetPath ⟨[], true, refreshOk⟩ ⟨"ks1", "cf1", "id1"⟩ "id2")
        ⟨staleFsConflict, [], []⟩ = runRefresh ⟨[], true, refreshOk⟩ ⟨"ks1", "cf1", "id1"⟩ w1 ∧
      Node.stat w1.fs (targetPath ⟨[], true, refreshOk⟩ ⟨"ks1", "cf1", "id1"⟩ "id2" ++ ["sstable1"])
        = .ok (.file "z") ∧
      Node.stat w1.fs (entryPath ⟨[], true, refreshOk⟩ ⟨"ks1", "cf1", "id1"⟩ ++ ["sstable1"])
        = .ok (.file "x") ∧
      (∃ S', Node.stat w1.fs (entryPath ⟨[], true, refreshOk⟩ ⟨"ks1", "cf1", "id1"⟩)
        = .ok (.dir S')) ∧
      Event.conflict (targetPath ⟨[], true, refreshOk⟩ ⟨"ks1", "cf1", "id1"⟩ "id2" ++ ["sstable1"])
        ∈ w1.out ∧
      (∀ n z, n ≠ "snapshots" →
        Node.stat (World.mk staleFsConflict [] []).fs
          (entryPath ⟨[], true, refreshOk⟩ ⟨"ks1", "cf1", "id1"⟩ ++ [n]) = .ok z →
        Node.stat (World.mk staleFsConflict [] []).fs
          (targetPath ⟨[], true, refreshOk⟩ ⟨"ks1", "cf1", "id1"⟩ "id2" ++ [n]) = .error .ENOENT →
        Node.stat w1.fs (targetPath ⟨[], true, refreshOk⟩ ⟨"ks1", "cf1", "id1"⟩ "id2" ++ [n])
          = .ok z ∧
        Node.stat w1.fs (entryPath ⟨[], true, refreshOk⟩ ⟨"ks1", "cf1", "id1"⟩ ++ [n])
          = .error .ENOENT) ∧
      Node.stat w1.fs (entryPath ⟨[], true, refreshOk⟩ ⟨"ks1", "cf1", "id1"⟩ ++ ["snapshots"])
        = .error .ENOENT ∧
      Node.stat w1.fs (targetPath ⟨[], true, refreshOk⟩ ⟨"ks1", "cf1", "id1"⟩ "id2" ++ ["snapshots"]) =
        Node.stat (World.mk staleFsConflict [] []).fs
          (targetPath ⟨[], true, refreshOk⟩ ⟨"ks1", "cf1", "id1"⟩ "id2" ++ ["snapshots"]) ∧
      refreshCalls (migrate ⟨[], true, refreshOk⟩ ⟨"ks1", "cf1", "id1"⟩
        (entryPath ⟨[], true, refreshOk⟩ ⟨"ks1", "cf1", "id1"⟩)
        (targetPath ⟨[], true, refreshOk⟩ ⟨"ks1", "cf1", "id1"⟩ "id2")
        ⟨staleFsConflict, [], []⟩).world.out =
        refreshCalls (World.mk staleFsConflict [] []).out ++ [("ks1", "cf1")] ∧
      ((∀ fs fs2, refreshOk "ks1" "cf1" fs = some fs2 → fs2 = fs) →
        (migrate ⟨[], true, refreshOk⟩ ⟨"ks1", "cf1", "id1"⟩
          (entryPath ⟨[], true, refreshOk⟩ ⟨"ks1", "cf1", "id1"⟩)
          (targetPath ⟨[], true, refreshOk⟩ ⟨"ks1", "cf1", "id1"⟩ "id2")
          ⟨staleFsConflict, [], []⟩).world.fs = w1.fs) :=
  migrate_keeps_conflicting_entry ⟨[], true, refreshOk⟩ ⟨"ks1", "cf1", "id1"⟩ "id2"
    ⟨staleFsConflict, [], []⟩ "sstable1" (.file "x") (.file "z")
    (by decide) (by decide) (by decide)
    (names_plain_of_entries staleFsConflict ["ks1", "cf1-id1"]
      [("sstable1", .file "x"), ("other", .file "o")] (by decide) (by decide))
    (by decide) (by decide)

/-- C6 fails as stated, in three ways.  (1) With declared (ks1, cf1, id2), the
directory `ks1/cf1-id1` holding `sstable1` and no directory `ks1/cf1-id2` on
disk, the confirmed move stops the process with the fatal error of the rename;
nothing has been moved, the old directory is still there and the refresh
command has not been run.  (2) With the declared identifier `id1/x` and the
empty directory `ks1/cf1-id1/x` on disk, source and destination exist and
nothing conflicts, but the destination lies inside the source and moving `x`
into itself stops the process.  (3) The refresh command is an external program:
when it fails the move ends with a fatal error, and when it changes the files
the entries are not where the move put them. -/
theorem migrate_fails_without_destination :
    (main ⟨[], true, refreshOk⟩ (some ⟨"--+--\nks1|cf1|id2\n", none⟩) ⟨staleFsNoDest, [], []⟩ =
        .ok (.exit ⟨staleFsNoDest, [],
          [.listing "From Schema File:" [⟨"ks1", "cf1", "id2"⟩],
           .listing "From Data Folder:" [⟨"ks1", "cf1", "id1"⟩],
           .offerMove ⟨"ks1", "cf1", "id1"⟩ "id2" ["ks1", "cf1-id1"] ["ks1", "cf1-id2"],
           .moving ["ks1", "cf1-id1"] ["ks1", "cf1-id2"]]⟩ "Can't move file") ∧
      migrate ⟨[], true, refreshOk⟩ ⟨"ks1", "cf1", "id1"⟩
        (entryPath ⟨[], true, refreshOk⟩ ⟨"ks1", "cf1", "id1"⟩)
        (targetPath ⟨[], true, refreshOk⟩ ⟨"ks1", "cf1", "id1"⟩ "id2") ⟨staleFsNoDest, [], []⟩ =
        .exit ⟨staleFsNoDest, [], [.moving ["ks1", "cf1-id1"] ["ks1", "cf1-id2"]]⟩
          "Can't move file" ∧
      Node.stat staleFsNoDest (targetPath ⟨[], true, refreshOk⟩ ⟨"ks1", "cf1", "id1"⟩ "id2") =
        .error .ENOENT) ∧
    (Node.stat staleFsNestedEmpty (entryPath ⟨[], true, refreshOk⟩ ⟨"ks1", "cf1", "id1"⟩) =
        .ok (.dir [("x", .dir [])]) ∧
      Node.stat staleFsNestedEmpty
        (targetPath ⟨[], true, refreshOk⟩ ⟨"ks1", "cf1", "id1"⟩ "id1/x") = .ok (.dir []) ∧
      main ⟨[], true, refreshOk⟩ (some ⟨"--+--\nks1|cf1|id1/x\n", none⟩)
        ⟨staleFsNestedEmpty, [], []⟩ =
        .ok (.exit ⟨staleFsNestedEmpty, [],
          [.listing "From Schema File:" [⟨"ks1", "cf1", "id1/x"⟩],
           .listing "From Data Folder:" [⟨"ks1", "cf1", "id1"⟩],
           .offerMove ⟨"ks1", "cf1", "id1"⟩ "id1/x" ["ks1", "cf1-id1"] ["ks1", "cf1-id1", "x"],
           .moving ["ks1", "cf1-id1"] ["ks1", "cf1-id1", "x"]]⟩ "Can't move file")) ∧
    (migrate ⟨[], true, refreshFails⟩ ⟨"ks1", "cf1", "id1"⟩
        (entryPath ⟨[], true, refreshFails⟩ ⟨"ks1", "cf1", "id1"⟩)
        (targetPath ⟨[], true, refreshFails⟩ ⟨"ks1", "cf1", "id1"⟩ "id2") ⟨staleFs, [], []⟩ =
        .exit ⟨.dir [("ks1", .dir [("cf1-id2", .dir [("sstable1", .file "x")])])], [],
          [.moving ["ks1", "cf1-id1"] ["ks1", "cf1-id2"],
           .removingSnapshots ["ks1", "cf1-id1", "snapshots"],
           .refresh "ks1" "cf1"]⟩ "nodetool refresh failed" ∧
      (migrate ⟨[], true, refreshWipes⟩ ⟨"ks1", "cf1", "id1"⟩
        (entryPath ⟨[], true, refreshWipes⟩ ⟨"ks1", "cf1", "id1"⟩)
        (targetPath ⟨[], true, refreshWipes⟩ ⟨"ks1", "cf1", "id1"⟩ "id2")
        ⟨staleFs, [], []⟩).world.fs = .dir []) := by
  decide

/-- C6 as amended: for every confirmed move of a stale entity whose source
directory exists with entries that have file names, whose old and new
directories are apart (different, neither inside the other, as they are
whenever group, name and identifiers are file names), and for which either the
destination directory exists and no source entry other than `snapshots` has a
name taken in it, or the source has no entry other than `snapshots` (the
destination then need not exist): the file operations end without a fatal
error, the source directory, with its `snapshots`, is removed, the `snapshots`
of the destination is what it was (the old one is not moved), and every other
entry of the source is under the destination with the same name.  The refresh
command is then run for (group, name), on this state, which is also the state
the move ends in whenever the refresh command leaves the files as they are;
when the command succeeds the move ends normally. -/
theorem migrate_moves_all_entries (env : Env) (e : SchemaEntry) (fromMap : String) (w : World)
    (hstale : fromMap ≠ e.ColumnFamilyID)
    (hapart : Apart (entryPath env e) (targetPath env e fromMap))
    (hsrc : ∃ S, Node.stat w.fs (entryPath env e) = .ok (.dir S))
    (hnames : ∀ n z, Node.stat w.fs (entryPath env e ++ [n]) = .ok z → PlainName n)
    (hdst : (∃ D, Node.stat w.fs (targetPath env e fromMap) = .ok (.dir D)) ∨
      (∀ n z, n ≠ "snapshots" → Node.stat w.fs (entryPath env e ++ [n]) ≠ .ok z))
    (hfree : ∀ n z, n ≠ "snapshots" → Node.stat w.fs (entryPath env e ++ [n]) = .ok z →
      Node.stat w.fs (targetPath env e fromMap ++ [n]) = .error .ENOENT) :
    ∃ w1, migrate env e (entryPath env e) (targetPath env e fromMap) w = runRefresh env e w1 ∧
      w1.stdin = w.stdin ∧
      Node.stat w1.fs (entryPath env e) = .error .ENOENT ∧
      Node.stat w1.fs (entryPath env e ++ ["snapshots"]) = .error .ENOENT ∧
      Node.stat w1.fs (targetPath env e fromMap ++ ["snapshots"]) =
        Node.stat w.fs (targetPath env e fromMap ++ ["snapshots"]) ∧
      (∀ n z, n ≠ "snapshots" → Node.stat w.fs (entryPath env e ++ [n]) = .ok z →
        Node.stat w1.fs (targetPath env e fromMap ++ [n]) = .ok z) ∧
      refreshCalls (migrate env e (entryPath env e) (targetPath env e fromMap) w).world.out =
        refreshCalls w.out ++ [(e.Keyspace, e.ColumnFamily)] ∧
      ((∀ fs fs2, env.nodetoolRefresh e.Keyspace e.ColumnFamily fs = some fs2 → fs2 = fs) →
        (migrate env e (entryPath env e) (targetPath env e fromMap) w).world.fs = w1.fs) ∧
      (∀ fs2, env.nodetoolRefresh e.Keyspace e.ColumnFamily w1.fs = some fs2 →
        ∃ w2, migrate env e (entryPath env e) (targetPath env e fromMap) w = .done w2 ∧
          w2.fs = fs2 ∧ w2.stdin = w.stdin) := by
  have _hstale := hstale
  obtain ⟨S, hS⟩ := hsrc
  have hplain : ∀ n, lookupEntry S n ≠ none → PlainName n := by
    intro n hn
    obtain ⟨z, hz⟩ := Option.ne_none_iff_exists'.1 hn
    exact hnames n z ((stat_child_ok_iff _ _ _ _ _ hS).2 hz)
  have hfinish : ∀ w1 : World,
      migrate env e (entryPath env e) (targetPath env e fromMap) w = runRefresh env e w1 →
      w1.stdin = w.stdin → refreshCalls w1.out = refreshCalls w.out →
      refreshCalls (migrate env e (entryPath env e) (targetPath env e fromMap) w).world.out =
        refreshCalls w.out ++ [(e.Keyspace, e.ColumnFamily)] ∧
      ((∀ fs fs2, env.nodetoolRefresh e.Keyspace e.ColumnFamily fs = some fs2 → fs2 = fs) →
        (migrate env e (entryPath env e) (targetPath env e fromMap) w).world.fs = w1.fs) ∧
      (∀ fs2, env.nodetoolRefresh e.Keyspace e.ColumnFamily w1.fs = some fs2 →
        ∃ w2, migrate env e (entryPath env e) (targetPath env e fromMap) w = .done w2 ∧
          w2.fs = fs2 ∧ w2.stdin = w.stdin) := by
    intro w1 hmig hin hrc
    refine ⟨?_, ?_, ?_⟩
    · rw [hmig, (runRefresh_calls env e w1).1, hrc]
    · intro hhook
      rw [hmig, runRefresh_world_fs env e w1 hhook]
    · intro fs2 hfs2
      refine ⟨{ fs := fs2, stdin := w1.stdin,
                out := w1.out ++ [.refresh e.Keyspace e.ColumnFamily] }, ?_, rfl, hin⟩
      rw [hmig, (runRefresh_calls env e w1).2.1 fs2 hfs2]
  rcases hdst with ⟨D, hD⟩ | hnothing
  · have hfree' : ∀ n, n ≠ "snapshots" → lookupEntry S n ≠ none → lookupEntry D n = none := by
      intro n hn hSn
      obtain ⟨z, hz⟩ := Option.ne_none_iff_exists'.1 hSn
      rw [← stat_child_enoent_iff _ _ _ _ hD]
      exact hfree n z hn ((stat_child_ok_iff _ _ _ _ _ hS).2 hz)
    obtain ⟨w1, D', S', hmig, hin, hrc, hD1, hDl, _, hgone, _, _⟩ :=
      migrate_spec env e _ _ hapart (entryPath_clean env e) (targetPath_clean env e fromMap)
        w S D hS hD hplain
    have hgone' := hgone hfree'
    refine ⟨w1, hmig, hin, hgone', ?_, ?_, ?_, hfinish w1 hmig hin hrc⟩
    · rw [stat_append, hgone']
    · rw [stat_child _ _ _ _ hD1, stat_child _ _ _ _ hD, hDl]
      simp
    · intro n z hn hnS
      rw [stat_child_ok_iff _ _ _ _ _ hS] at hnS
      rw [stat_child_ok_iff _ _ _ _ _ hD1, hDl]
      simp [hn, hnS, hfree' n hn (by simp [hnS])]
  · have hnone : ∀ n, n ≠ "snapshots" → lookupEntry S n = none := by
      intro n hn
      cases hl : lookupEntry S n with
      | none => rfl
      | some z => exact absurd ((stat_child_ok_iff _ _ _ _ _ hS).2 hl) (hnothing n z hn)
    obtain ⟨w1, hmig, hin, hrc, hgone, hframe⟩ :=
      migrate_nothing_to_move env e (entryPath env e) (targetPath env e fromMap)
        (apart_ne_nil hapart) (entryPath_clean env e) w S hS hnone
    refine ⟨w1, hmig, hin, hgone, ?_, ?_, ?_, hfinish w1 hmig hin hrc⟩
    · rw [stat_append, hgone]
    · exact hframe _ (apart_below hapart _)
    · intro n z hn hnS
      exact absurd hnS (hnothing n z hn)

/-- C6 as amended, at the directory `ks1/cf1-id1` holding `sstable1` and old
snapshots with the directory `ks1/cf1-id2` on disk, and at a directory
`ks1/cf1-id1` holding only old snapshots with no directory `ks1/cf1-id2`. -/
theorem migrate_moves_all_entries_witness :
    (∃ w1, migrate ⟨[], true, refreshOk⟩ ⟨"ks1", "cf1", "id1"⟩
        (entryPath ⟨[], true, refreshOk⟩ ⟨"ks1", "cf1", "id1"⟩)
        (targetPath ⟨[], true, refreshOk⟩ ⟨"ks1", "cf1", "id1"⟩ "id2")
        ⟨staleFs, [], []⟩ = runRefresh ⟨[], true, refreshOk⟩ ⟨"ks1", "cf1", "id1"⟩ w1 ∧
      w1.stdin = (World.mk staleFs [] []).stdin ∧
      Node.stat w1.fs (entryPath ⟨[], true, refreshOk⟩ ⟨"ks1", "cf1", "id1"⟩) = .error .ENOENT ∧
      Node.stat w1.fs (entryPath ⟨[], true, refreshOk⟩ ⟨"ks1", "cf1", "id1"⟩ ++ ["snapshots"])
        = .error .ENOENT ∧
      Node.stat w1.fs (targetPath ⟨[], true, refreshOk⟩ ⟨"ks1", "cf1", "id1"⟩ "id2" ++ ["snapshots"]) =
        Node.stat (World.mk staleFs [] []).fs
          (targetPath ⟨[], true, refreshOk⟩ ⟨"ks1", "cf1", "id1"⟩ "id2" ++ ["snapshots"]) ∧
      (∀ n z, n ≠ "snapshots" →
        Node.stat (World.mk staleFs [] []).fs
          (entryPath ⟨[], true, refreshOk⟩ ⟨"ks1", "cf1", "id1"⟩ ++ [n]) = .ok z →
        Node.stat w1.fs (targetPath ⟨[], true, refreshOk⟩ ⟨"ks1", "cf1", "id1"⟩ "id2" ++ [n])
          = .ok z) ∧
      refreshCalls (migrate ⟨[], true, refreshOk⟩ ⟨"ks1", "cf1", "id1"⟩
        (entryPath ⟨[], true, refreshOk⟩ ⟨"ks1", "cf1", "id1"⟩)
        (targetPath ⟨[], true, refreshOk⟩ ⟨"ks1", "cf1", "id1"⟩ "id2")
        ⟨staleFs, [], []⟩).world.out =
        refreshCalls (World.mk staleFs [] []).out ++ [("ks1", "cf1")] ∧
      ((∀ fs fs2, refreshOk "ks1" "cf1" fs = some fs2 → fs2 = fs) →
        (migrate ⟨[], true, refreshOk⟩ ⟨"ks1", "cf1", "id1"⟩
          (entryPath ⟨[], true, refreshOk⟩ ⟨"ks1", "cf1", "id1"⟩)
          (targetPath ⟨[], true, refreshOk⟩ ⟨"ks1", "cf1", "id1"⟩ "id2")
          ⟨staleFs, [], []⟩).world.fs = w1.fs) ∧
      (∀ fs2, refreshOk "ks1" "cf1" w1.fs = some fs2 →
        ∃ w2, migrate ⟨[], true, refreshOk⟩ ⟨"ks1", "cf1", "id1"⟩
          (entryPath ⟨[], true, refreshOk⟩ ⟨"ks1", "cf1", "id1"⟩)
          (targetPath ⟨[], true, refreshOk⟩ ⟨"ks1", "cf1", "id1"⟩ "id2")
          ⟨staleFs, [], []⟩ = .done w2 ∧ w2.fs = fs2 ∧
          w2.stdin = (World.mk staleFs [] []).stdin)) ∧
    (migrate ⟨[], true, refreshOk⟩ ⟨"ks1", "cf1", "id1"⟩
        (entryPath ⟨[], true, refreshOk⟩ ⟨"ks1", "cf1", "id1"⟩)
        (targetPath ⟨[], true, refreshOk⟩ ⟨"ks1", "cf1", "id1"⟩ "id2")
        ⟨staleFsOnlySnapshots, [], []⟩).world.fs = .dir [("ks1", .dir [])] :=
  ⟨migrate_moves_all_entries ⟨[], true, refreshOk⟩ ⟨"ks1", "cf1", "id1"⟩ "id2" ⟨staleFs, [], []⟩
    (by decide) (by decide)
    ⟨[("sstable1", .file "x"), ("snapshots", .dir [("s", .file "y")])], by decide⟩
    (names_plain_of_entries staleFs ["ks1", "cf1-id1"]
      [("sstable1", .file "x"), ("snapshots", .dir [("s", .file "y")])] (by decide) (by decide))
    (Or.inl ⟨[], by decide⟩)
    (by
      intro n z hn hz
      have hD : Node.stat staleFs ["ks1", "cf1-id2"] = .ok (.dir []) := by decide
      exact (stat_child_enoent_iff staleFs ["ks1", "cf1-id2"] [] n hD).2 rfl),
   by
    obtain ⟨w1, hmig, _, _, _, _, _, _, hfs, _⟩ :=
      migrate_moves_all_entries ⟨[], true, refreshOk⟩ ⟨"ks1", "cf1", "id1"⟩ "id2"
        ⟨staleFsOnlySnapshots, [], []⟩ (by decide) (by decide)
        ⟨[("snapshots", .dir [("s", .file "y")])], by decide⟩
        (names_plain_of_entries staleFsOnlySnapshots ["ks1", "cf1-id1"]
          [("snapshots", .dir [("s", .file "y")])] (by decide) (by decide))
        (Or.inr (by
          intro n z hn hz
          have hS : Node.stat staleFsOnlySnapshots ["ks1", "cf1-id1"] =
              .ok (.dir [("snapshots", .dir [("s", .file "y")])]) := by decide
          have := (stat_child_ok_iff staleFsOnlySnapshots ["ks1", "cf1-id1"] _ n z hS).1 hz
          simp [lookupEntry, Ne.symm hn] at this))
        (by
          intro n z hn hz
          have hS : Node.stat staleFsOnlySnapshots ["ks1", "cf1-id1"] =
              .ok (.dir [("snapshots", .dir [("s", .file "y")])]) := by decide
          have := (stat_child_ok_iff staleFsOnlySnapshots ["ks1", "cf1-id1"] _ n z hS).1 hz
          simp [lookupEntry, Ne.symm hn] at this)
    decide⟩

/-! ## The observed builder: one entity per leaf directory (C8) -/

theorem ReadDir_ok_dir (fs : Node) (p : Path) (l : List FileInfo) (h : ReadDir fs p = .ok l) :
    ∃ es, Node.stat fs p = .ok (.dir es) := by
  unfold ReadDir at h
  cases hs : Node.stat fs p with
  | error e => simp [hs] at h
  | ok n =>
    cases n with
    | file c => simp [hs] at h
    | dir es => exact ⟨es, rfl⟩

theorem ReadDir_subdir (fs : Node) (p : Path) (l : List FileInfo) (k : FileInfo)
    (h : ReadDir fs p = .ok l) (hk : k ∈ l) (hdir : k.IsDir = true) :
    ∃ l', ReadDir fs (p ++ [k.Name]) = .ok l' := by
  obtain ⟨es, hes⟩ := ReadDir_ok_dir fs p l h
  obtain ⟨files, hread, _, hisdir⟩ := ReadDir_of_dir fs p es hes
  rw [h] at hread
  cases hread
  obtain ⟨sub, hsub⟩ := (hisdir k hk).1 hdir
  have hstat : Node.stat fs (p ++ [k.Name]) = .ok (.dir sub) :=
    (stat_child_ok_iff fs p es k.Name _ hes).2 hsub
  obtain ⟨l', hl', _, _⟩ := ReadDir_of_dir fs (p ++ [k.Name]) sub hstat
  exact ⟨l', hl'⟩

/-- The outer loop of the observed builder in closed form. -/
theorem keyspaceLoop_eq (fs : Node) (dataFolder : Path) (dirs : List FileInfo) (schema : Schema)
    (hsub : ∀ k ∈ dirs, k.IsDir = true → ∃ l', ReadDir fs (dataFolder ++ [k.Name]) = .ok l')
    (hnames : ∀ k ∈ dirs, k.Name ≠ "" ∧
      ∀ c ∈ listDir fs (dataFolder ++ [k.Name]), c.Name ≠ "")
    (hdash : ∀ k ∈ dirs, visible k = true →
      ∀ c ∈ listDir fs (dataFolder ++ [k.Name]), visible c = true → '-' ∈ c.Name.data) :
    keyspaceLoop fs dataFolder dirs schema =
      .ok (schema ++ (dirs.filter visible).flatMap fun k =>
        ((listDir fs (dataFolder ++ [k.Name])).filter visible).map fun c =>
          leafEntity k.Name c.Name) := by
  induction dirs generalizing schema with
  | nil => simp [keyspaceLoop]
  | cons k rest ih =>
    have ihr := fun schema => ih schema (fun x hx => hsub x (List.mem_cons_of_mem _ hx))
      (fun x hx => hnames x (List.mem_cons_of_mem _ hx))
      (fun x hx => hdash x (List.mem_cons_of_mem _ hx))
    unfold keyspaceLoop
    dsimp only
    by_cases hdir : k.IsDir = true
    · by_cases hvis : visible k = true
      · obtain ⟨l', hl'⟩ := hsub k (List.mem_cons_self _ _) hdir
        have hlist : listDir fs (dataFolder ++ [k.Name]) = l' := by
          unfold listDir
          rw [hl']
        have hk := hnames k (List.mem_cons_self _ _)
        have hd := hdash k (List.mem_cons_self _ _) hvis
        rw [hlist] at hk hd
        simp only [hdir, if_true, (firstIsNot_of_visible k hvis).2, hl',
          columnFamilyLoop_eq k.Name l' schema hk.2 hd, ihr, List.filter_cons, hvis,
          List.flatMap_cons, hlist, List.append_assoc]
      · simp only [Bool.not_eq_true] at hvis
        simp only [hdir, if_true,
          firstIsNot_of_not_visible k hdir (hnames k (List.mem_cons_self _ _)).1 hvis, ihr,
          List.filter_cons, hvis]
        simp
    · have hvis : visible k = false := by
        simp only [Bool.not_eq_true] at hdir
        simp [visible, hdir]
      simp only [hdir, ihr, List.filter_cons, hvis]
      simp

theorem visible_name_ne_empty (fi : FileInfo) (h : visible fi = true) : fi.Name ≠ "" := by
  intro hn
  unfold visible at h
  rw [hn] at h
  simp at h

/-- C8 fails as stated: a leaf directory whose name has no `-` makes the
observed builder panic (the slice `columnFamily[:i]` with `i = -1`), and a leaf
directory whose name begins with `-` gives an entity with an empty name. -/
theorem getFromDataFolder_panics_or_empty_name :
    ReadDir (.dir [("ks", .dir [("nodash", .dir [])])]) [] = .ok [⟨"ks", true⟩] ∧
    ReadDir (.dir [("ks", .dir [("nodash", .dir [])])]) ["ks"] = .ok [⟨"nodash", true⟩] ∧
    getFromDataFolder (.dir [("ks", .dir [("nodash", .dir [])])]) [] =
      .panic "slice bounds out of range" ∧
    getFromDataFolder (.dir [("ks", .dir [("-abc", .dir [])])]) [] =
      .ok [⟨"ks", "", "abc"⟩] := by
  decide

/-- C8 as amended: for every data folder that can be listed, whose entries
have non-empty names, and in which every leaf directory that is not hidden has
a `-` in its name, the observed builder ends normally and returns exactly one
entity per leaf directory: one for each directory not beginning with `.` inside
each group directory not beginning with `.`, none for entries beginning with
`.` or not directories.  No returned entity has an empty group; the name and
identifier of an entity are the leaf name cut at its last `-`, and the name is
empty exactly when that `-` is the first character of the leaf name. -/
theorem getFromDataFolder_one_entity_per_leaf (fs : Node) (dataFolder : Path)
    (hread : ∃ keyspaceDirs, ReadDir fs dataFolder = .ok keyspaceDirs)
    (hnames : ∀ k ∈ listDir fs dataFolder, k.Name ≠ "" ∧
      ∀ c ∈ listDir fs (dataFolder ++ [k.Name]), c.Name ≠ "")
    (hdash : ∀ k ∈ listDir fs dataFolder, visible k = true →
      ∀ c ∈ listDir fs (dataFolder ++ [k.Name]), visible c = true → '-' ∈ c.Name.data) :
    getFromDataFolder fs dataFolder = .ok (entitiesOfLeaves fs dataFolder) ∧
    (∀ e ∈ entitiesOfLeaves fs dataFolder, e.Keyspace ≠ "") ∧
    (∀ k ∈ listDir fs dataFolder, visible k = true →
      ∀ c ∈ listDir fs (dataFolder ++ [k.Name]), visible c = true →
        (leafEntity k.Name c.Name).Keyspace = k.Name ∧
        (leafEntity k.Name c.Name).ColumnFamily ++ "-" ++
          (leafEntity k.Name c.Name).ColumnFamilyID = c.Name ∧
        '-' ∉ (leafEntity k.Name c.Name).ColumnFamilyID.data ∧
        ((leafEntity k.Name c.Name).ColumnFamily = "" ↔ LastIndex c.Name '-' = 0)) := by
  obtain ⟨keyspaceDirs, hrd⟩ := hread
  have hlist : listDir fs dataFolder = keyspaceDirs := by
    unfold listDir
    rw [hrd]
  rw [hlist] at hnames hdash
  refine ⟨?_, ?_, ?_⟩
  · unfold getFromDataFolder entitiesOfLeaves
    rw [hrd, hlist]
    dsimp only
    rw [keyspaceLoop_eq fs dataFolder keyspaceDirs []
      (fun k hk hdir => ReadDir_subdir fs dataFolder keyspaceDirs k hrd hk hdir) hnames hdash]
    simp
  · intro e he
    unfold entitiesOfLeaves at he
    simp only [List.mem_flatMap, List.mem_filter, List.mem_map] at he
    obtain ⟨k, ⟨_, hvis⟩, c, _, rfl⟩ := he
    exact visible_name_ne_empty k hvis
  · intro k hk hvis c hc hcvis
    rw [hlist] at hk
    have hsplit := leafEntity_split k.Name c.Name (hdash k hk hvis c hc hcvis)
    exact ⟨rfl, hsplit.2.2.1, hsplit.2.2.2.1, hsplit.2.2.2.2⟩

/-- C8 as amended, at a data folder with a hidden group, a plain file, a hidden
leaf and two leaf directories. -/
theorem getFromDataFolder_one_entity_per_leaf_witness :
    getFromDataFolder sampleFs ["data"] =
      .ok [⟨"ks1", "cf1", "id1"⟩, ⟨"ks1", "my.table", "abc123"⟩] ∧
    entitiesOfLeaves sampleFs ["data"] =
      [⟨"ks1", "cf1", "id1"⟩, ⟨"ks1", "my.table", "abc123"⟩] :=
  ⟨(getFromDataFolder_one_entity_per_leaf sampleFs ["data"] ⟨_, rfl⟩
      (by decide) (by decide)).1,
   by decide⟩

end SchemaFix
